import Mathlib

/-!
Verification of `chatgpt-autopsy-go` core pipeline components.

Shallow embedding of `internal/services/extraction.go`, `parser.go`,
`thread.go` and `upload.go`. Go strings are modelled as `List Char`
(`GoStr`); slash-separated file paths as an absoluteness flag plus the
list of segments between separators (`GoPath`); machine integers as
`Nat`/`Int`; the database as explicit lists of records; fallible code as
`Except`/`Option`; the parser's unbounded recursion with explicit fuel
(`none` = the recursion did not complete within the given fuel).
-/

set_option maxHeartbeats 1000000

namespace Autopsy

/-- Go strings modelled as lists of characters. -/
abbrev GoStr := List Char

/-- A slash-separated file path: whether it is absolute, plus the list of
segments between separators. Corresponds to the Go string
`(if isAbs then "/" else "") ++ intercalate "/" segs`; raw (uncleaned)
paths may contain empty, `"."` and `".."` segments. -/
structure GoPath where
  isAbs : Bool
  segs : List GoStr
deriving DecidableEq

/-- One step of the lexical segment resolution performed by
`filepath.Clean` (Unix rules): drop empty and `"."` segments; `".."`
pops the previous segment unless there is none (kept for relative paths,
dropped at the root of absolute ones). -/
def cleanStep (isAbs : Bool) (st : List GoStr) (seg : GoStr) : List GoStr :=
  if seg = [] ∨ seg = ['.'] then st
  else if seg = ['.', '.'] then
    match st.getLast? with
    | some l => if l = ['.', '.'] then st ++ [seg] else st.dropLast
    | none => if isAbs then [] else [seg]
  else st ++ [seg]

/-- Segment resolution of `filepath.Clean` over a whole segment list. -/
def cleanSegs (isAbs : Bool) (segs : List GoStr) : List GoStr :=
  segs.foldl (cleanStep isAbs) []

/-- `filepath.Clean` on our path representation. (For the empty cleaned
relative path Go prints `"."` where we keep an empty segment list; no
subsequent check in `sanitizePath` distinguishes the two renderings.) -/
def goClean (p : GoPath) : GoPath :=
  ⟨p.isAbs, cleanSegs p.isAbs p.segs⟩

/-- `strings.TrimPrefix(s, "/")`: drops one leading separator, i.e. makes
an absolute path relative and leaves a relative path unchanged. -/
def trimSep (p : GoPath) : GoPath :=
  if p.isAbs then ⟨false, p.segs⟩ else p

/-- `strings.TrimPrefix(s, "\\")`: on Unix the backslash is an ordinary
character, so this drops a single leading backslash from the first
segment of a relative path (an absolute path starts with `/`, not `\`). -/
def trimBackslash (p : GoPath) : GoPath :=
  if p.isAbs then p
  else
    match p.segs with
    | [] => p
    | s :: rest =>
      match s with
      | '\\' :: srest => ⟨false, srest :: rest⟩
      | _ => p

/-- `sub` occurs as a contiguous substring of `s`. -/
def containsSub (s sub : GoStr) : Bool :=
  s.tails.any fun t => sub.isPrefixOf t

/-- `strings.Contains(path, "..")`. Since segments are separated by `/`
(and an absolute path only adds a leading `/`), a `".."` substring of the
rendered string always lies within a single segment, so the string check
equals a per-segment check. -/
def containsDotDot (p : GoPath) : Bool :=
  p.segs.any fun s => containsSub s ['.', '.']

/-- Segments joined with `/` separators. -/
def joinSegs : List GoStr → GoStr
  | [] => []
  | [s] => s
  | s :: rest => s ++ '/' :: joinSegs rest

/-- The rendered Go string of a path (used where the Go code compares
whole path strings, e.g. `strings.HasPrefix`). -/
def pathChars (p : GoPath) : GoStr :=
  if p.isAbs then '/' :: joinSegs p.segs else joinSegs p.segs

/-- `filepath.Join(a, b)`: concatenate with a separator and clean. -/
def goJoin (a b : GoPath) : GoPath :=
  goClean ⟨a.isAbs, a.segs ++ b.segs⟩

/-- `filepath.Abs`: clean an absolute path, join a relative one onto the
current working directory. -/
def goAbs (cwd p : GoPath) : GoPath :=
  if p.isAbs then goClean p else goJoin cwd p

/-- The error cases of `sanitizePath`. -/
inductive SanitizeError where
  | containsDotDot
  | absolutePath
  | outsideBase
deriving DecidableEq

/-- `ExtractionService.sanitizePath` (extraction.go:160-198): clean the
entry name, strip leading separators, reject `".."` substrings and
absolute paths, join with the base directory and require the base's
rendered string to be a string prefix of the resolved full path. -/
def sanitizePath (cwd filePath baseDir : GoPath) : Except SanitizeError GoPath :=
  let c1 := goClean filePath
  let c2 := trimSep c1
  let c3 := trimSep c2
  let c4 := trimBackslash c3
  if containsDotDot c4 then .error .containsDotDot
  else if c4.isAbs then .error .absolutePath
  else
    let fullPath := goJoin baseDir c4
    let baseAbs := goAbs cwd baseDir
    let fullAbs := goAbs cwd fullPath
    if (pathChars baseAbs).isPrefixOf (pathChars fullAbs) then .ok fullPath
    else .error .outsideBase

/-- The normalization `sanitizePath` applies to an entry name before its
checks: `Clean`, two `TrimPrefix` of the separator, one of `"\\"`. -/
def normalizeEntry (p : GoPath) : GoPath :=
  trimBackslash (trimSep (trimSep (goClean p)))

/-- `p` stays inside the directory `baseDir`: same absoluteness and the
base's segment list is a prefix of `p`'s. -/
def insideBase (baseDir p : GoPath) : Prop :=
  p.isAbs = baseDir.isAbs ∧ baseDir.segs.isPrefixOf p.segs = true

/-- The claim's trigger: the entry name, after the code's normalization,
joined with the destination directory, resolves outside it. -/
def resolvesOutside (baseDir name : GoPath) : Prop :=
  ¬ insideBase baseDir (goJoin baseDir (normalizeEntry name))

/-- A well-formed directory segment list: no empty, `"."` or `".."`
segments (true of the resolved absolute extraction directory). -/
def GoodDirSegs (segs : List GoStr) : Prop :=
  ∀ s ∈ segs, s ≠ [] ∧ s ≠ ['.'] ∧ s ≠ ['.', '.']

/-- `strings.ToLower`. -/
def lowerStr (s : GoStr) : GoStr := s.map Char.toLower

/-- `filepath.Ext` of a single segment: from the final dot to the end,
or empty when the segment has no dot. -/
def extChars (s : GoStr) : GoStr :=
  let r := s.reverse
  let pre := r.takeWhile fun c => c ≠ '.'
  if pre.length = r.length then [] else '.' :: pre.reverse

/-- `filepath.Ext` of a path: the extension of its last segment. -/
def goExt (p : GoPath) : GoStr :=
  extChars ((p.segs.getLast?).getD [])

/-- The media extensions of `determineFileType`. -/
def mediaExts : List GoStr :=
  [".jpg".data, ".jpeg".data, ".png".data, ".gif".data, ".webp".data,
   ".mp3".data, ".mp4".data, ".wav".data, ".pdf".data]

/-- `ExtractionService.determineFileType` (extraction.go:231-250). -/
def determineFileType (filePath : GoPath) : String :=
  let ext := lowerStr (goExt filePath)
  if ext = ".json".data ∧
      (containsSub (pathChars filePath) "conversation".data ∨
       containsSub (pathChars filePath) "chat".data ∨
       containsSub (pathChars filePath) "message".data) then "conversation"
  else if ext ∈ mediaExts then "media"
  else "other"

/-- The extraction-relevant configuration limits. -/
structure ExtractConfig where
  maxExtractionSize : Nat
  maxExtractedFiles : Nat
deriving DecidableEq

/-- One archive entry: its name, uncompressed size, and whether reading
its bytes out of the archive succeeds (`extractFile`'s I/O outcome). -/
structure ZipEntry where
  name : GoPath
  uncompressedSize : Nat
  readOk : Bool
deriving DecidableEq

/-- A `models.Extraction` record as created by `ExtractUpload`. -/
structure Extraction where
  uploadID : Nat
  filePath : GoPath
  fileType : String
  fileSize : Nat
  status : String
deriving DecidableEq

/-- The mutable fields of the `models.Import` record that `ExtractUpload`
touches. -/
structure ImportRec where
  status : String
  progressPercent : Nat
  errorMessage : Option String
deriving DecidableEq

/-- The loop state of `ExtractUpload`: running totals, the accumulated
`Extraction` records, the files written to disk (in order), and the
current import record. -/
structure ExtractState where
  totalSize : Nat
  fileCount : Nat
  records : List Extraction
  written : List GoPath
  imp : ImportRec
deriving DecidableEq

/-- The per-entry progress value `10 + int(float64(fileCount)/float64(total)*30)`,
modelled with natural division (the float truncation can differ by one in
corner cases; no claim depends on the progress value). -/
def floatProgress (fileCount total : Nat) : Nat :=
  10 + fileCount * 30 / total

/-- The error message written when the entry-count limit is hit. -/
def limitFilesMsg (cfg : ExtractConfig) : String :=
  "exceeded max extracted files: " ++ toString cfg.maxExtractedFiles

/-- The error message written when the extraction-size limit is hit. -/
def limitSizeMsg (cfg : ExtractConfig) : String :=
  "exceeded max extraction size: " ++ toString cfg.maxExtractionSize

/-- The entry loop of `ExtractionService.ExtractUpload`
(extraction.go:75-134). Per entry: abort on the file-count limit; skip
entries whose name fails `sanitizePath`; abort when the accumulated
uncompressed total would exceed the size limit; skip entries whose bytes
cannot be read; otherwise write the file, record it, and bump the
counters and progress. The `Bool` is `true` when the loop ran to
completion. -/
def extractLoop (cfg : ExtractConfig) (cwd baseDir : GoPath) (uploadID : Nat)
    (total : Nat) : List ZipEntry → ExtractState → ExtractState × Bool
  | [], st => (st, true)
  | e :: rest, st =>
    if st.fileCount ≥ cfg.maxExtractedFiles then
      ({ st with imp := { st.imp with
                          status := "failed"
                          errorMessage := some (limitFilesMsg cfg) } }, false)
    else
      match sanitizePath cwd e.name baseDir with
      | .error _ => extractLoop cfg cwd baseDir uploadID total rest st
      | .ok sanitized =>
        if st.totalSize + e.uncompressedSize > cfg.maxExtractionSize then
          ({ st with imp := { st.imp with
                              status := "failed"
                              errorMessage := some (limitSizeMsg cfg) } }, false)
        else if e.readOk then
          extractLoop cfg cwd baseDir uploadID total rest
            { totalSize := st.totalSize + e.uncompressedSize
              fileCount := st.fileCount + 1
              records := st.records ++
                [⟨uploadID, sanitized, determineFileType e.name,
                  e.uncompressedSize, "extracted"⟩]
              written := st.written ++ [sanitized]
              imp := { st.imp with
                       progressPercent := floatProgress (st.fileCount + 1) total } }
        else
          extractLoop cfg cwd baseDir uploadID total rest st

/-- The state in which `ExtractUpload` enters its loop (status already
set to `"extracting"`, progress 10). -/
def initialExtractState : ExtractState :=
  ⟨0, 0, [], [], ⟨"extracting", 10, none⟩⟩

/-- The outcome of `ExtractUpload`: the final import record, the
persisted `Extraction` records (batch-created only when the loop ran to
completion), the files written on disk, and overall success. -/
structure ExtractResult where
  imp : ImportRec
  persisted : List Extraction
  written : List GoPath
  ok : Bool
deriving DecidableEq

/-- `ExtractionService.ExtractUpload` after the import record is set to
`"extracting"` (extraction.go:75-157): run the loop over the entries; on
success persist the records and move the import to `"parsing"`/40; on
abort return with the failed import record, no records persisted, and
the already-written files left on disk. -/
def extractUpload (cfg : ExtractConfig) (cwd baseDir : GoPath) (uploadID : Nat)
    (entries : List ZipEntry) : ExtractResult :=
  let r := extractLoop cfg cwd baseDir uploadID entries.length entries
    initialExtractState
  if r.2 then
    ⟨{ r.1.imp with status := "parsing", progressPercent := 40 },
      r.1.records, r.1.written, true⟩
  else
    ⟨r.1.imp, [], r.1.written, false⟩

end Autopsy

namespace Autopsy

lemma cleanStep_good (isAbs : Bool) (st : List GoStr) {s : GoStr}
    (h1 : s ≠ []) (h2 : s ≠ ['.']) (h3 : s ≠ ['.', '.']) :
    cleanStep isAbs st s = st ++ [s] := by
  unfold cleanStep
  rw [if_neg (by simp [h1, h2]), if_neg h3]

lemma foldl_cleanStep_good (isAbs : Bool) :
    ∀ (segs : List GoStr), GoodDirSegs segs →
    ∀ acc, segs.foldl (cleanStep isAbs) acc = acc ++ segs
  | [], _, acc => by simp
  | s :: rest, h, acc => by
    have hs := h s (by simp)
    rw [List.foldl_cons, cleanStep_good isAbs acc hs.1 hs.2.1 hs.2.2,
        foldl_cleanStep_good isAbs rest (fun x hx => h x (by simp [hx])) _]
    simp

lemma cleanSegs_fixed {isAbs : Bool} {segs : List GoStr} (h : GoodDirSegs segs) :
    cleanSegs isAbs segs = segs := by
  rw [cleanSegs, foldl_cleanStep_good isAbs segs h []]
  simp

/-- The segments `filepath.Clean` keeps when no `".."` segment occurs. -/
def keepSeg (s : GoStr) : Bool := decide (s ≠ [] ∧ s ≠ ['.'])

lemma foldl_cleanStep_noDotDot (isAbs : Bool) :
    ∀ (segs : List GoStr), (∀ s ∈ segs, s ≠ ['.', '.']) →
    ∀ acc, segs.foldl (cleanStep isAbs) acc = acc ++ segs.filter keepSeg
  | [], _, acc => by simp
  | s :: rest, h, acc => by
    have hrest := fun x hx => h x (List.mem_cons_of_mem s hx)
    by_cases hk : s = [] ∨ s = ['.']
    · have hstep : cleanStep isAbs acc s = acc := by
        unfold cleanStep; rw [if_pos hk]
      have hks : keepSeg s = false := by
        unfold keepSeg; rcases hk with h' | h' <;> simp [h']
      rw [List.foldl_cons, hstep, foldl_cleanStep_noDotDot isAbs rest hrest acc]
      simp [List.filter_cons, hks]
    · push_neg at hk
      have hks : keepSeg s = true := by unfold keepSeg; simp [hk.1, hk.2]
      rw [List.foldl_cons, cleanStep_good isAbs acc hk.1 hk.2 (h s (by simp)),
          foldl_cleanStep_noDotDot isAbs rest hrest _]
      simp [List.filter_cons, hks]

lemma pref_app_cons (s : GoStr) {x y : GoStr} (h : x <+: y) :
    (s ++ '/' :: x) <+: (s ++ '/' :: y) := by
  obtain ⟨t, rfl⟩ := h
  exact ⟨t, by simp⟩

lemma joinSegs_pref : ∀ (b r : List GoStr), joinSegs b <+: joinSegs (b ++ r)
  | [], r => ⟨joinSegs r, by simp [joinSegs]⟩
  | [s], [] => by simp
  | [s], r0 :: rs => ⟨'/' :: joinSegs (r0 :: rs), by simp [joinSegs]⟩
  | s :: t :: b', r => by
    have ih := joinSegs_pref (t :: b') r
    show joinSegs (s :: t :: b') <+: joinSegs (s :: ((t :: b') ++ r))
    have h1 : joinSegs (s :: t :: b') = s ++ '/' :: joinSegs (t :: b') := rfl
    have h2 : joinSegs (s :: ((t :: b') ++ r)) = s ++ '/' :: joinSegs ((t :: b') ++ r) := rfl
    rw [h1, h2]
    exact pref_app_cons s ih

lemma isPrefixOf_app {α : Type} [BEq α] [LawfulBEq α] :
    ∀ (a t : List α), a.isPrefixOf (a ++ t) = true
  | [], _ => by simp [List.isPrefixOf]
  | x :: xs, t => by simp [List.isPrefixOf, isPrefixOf_app xs t]

lemma containsDotDot_false {p : GoPath} (h : containsDotDot p = false) :
    ∀ s ∈ p.segs, s ≠ ['.', '.'] := by
  intro s hs heq
  have hf := (List.any_eq_false.mp h) s hs
  rw [heq] at hf
  exact hf (by decide)

lemma trimSep_isAbs (p : GoPath) : (trimSep p).isAbs = false := by
  unfold trimSep
  by_cases h : p.isAbs = true
  · simp [h]
  · simp only [Bool.not_eq_true] at h
    simp [h]

lemma trimBackslash_isAbs {p : GoPath} (h : p.isAbs = false) :
    (trimBackslash p).isAbs = false := by
  unfold trimBackslash
  rw [if_neg (by simp [h])]
  split
  · exact h
  · split
    · exact rfl
    · exact h

end Autopsy

namespace Autopsy

lemma normalizeEntry_isAbs (p : GoPath) : (normalizeEntry p).isAbs = false := by
  unfold normalizeEntry
  exact trimBackslash_isAbs (trimSep_isAbs (trimSep (goClean p)))

lemma goClean_fixed {p : GoPath} (h : GoodDirSegs p.segs) : goClean p = p := by
  unfold goClean
  rw [cleanSegs_fixed h]

lemma goAbs_abs_fixed {cwd p : GoPath} (habs : p.isAbs = true)
    (h : GoodDirSegs p.segs) : goAbs cwd p = p := by
  unfold goAbs
  rw [if_pos habs, goClean_fixed h]

lemma GoodDirSegs_append {a b : List GoStr} (ha : GoodDirSegs a)
    (hb : GoodDirSegs b) : GoodDirSegs (a ++ b) := by
  intro s hs
  rcases List.mem_append.mp hs with h | h
  · exact ha s h
  · exact hb s h

lemma GoodDirSegs_filter {c : List GoStr} (hc : ∀ s ∈ c, s ≠ ['.', '.']) :
    GoodDirSegs (c.filter keepSeg) := by
  intro s hs
  have hmem := List.mem_filter.mp hs
  have hk := of_decide_eq_true hmem.2
  exact ⟨hk.1, hk.2, hc s hmem.1⟩

lemma goJoin_noDotDot {base c : GoPath} (hb : base.isAbs = true)
    (hgood : GoodDirSegs base.segs) (hc : ∀ s ∈ c.segs, s ≠ ['.', '.']) :
    goJoin base c = ⟨true, base.segs ++ c.segs.filter keepSeg⟩ := by
  unfold goJoin goClean cleanSegs
  rw [hb]
  simp only
  rw [List.foldl_append, foldl_cleanStep_good true base.segs hgood [],
      List.nil_append, foldl_cleanStep_noDotDot true c.segs hc base.segs]

lemma sanitizePath_ok_of_noDotDot {cwd base : GoPath} (hb : base.isAbs = true)
    (hgood : GoodDirSegs base.segs) {name : GoPath}
    (h : containsDotDot (normalizeEntry name) = false) :
    sanitizePath cwd name base = .ok (goJoin base (normalizeEntry name)) := by
  have hc := containsDotDot_false h
  have habs : (normalizeEntry name).isAbs = false := normalizeEntry_isAbs name
  have hjoin := goJoin_noDotDot hb hgood hc
  have hfullgood : GoodDirSegs (base.segs ++ (normalizeEntry name).segs.filter keepSeg) :=
    GoodDirSegs_append hgood (GoodDirSegs_filter hc)
  have habsbase : goAbs cwd base = base := goAbs_abs_fixed hb hgood
  have habsfull : goAbs cwd (goJoin base (normalizeEntry name)) =
      goJoin base (normalizeEntry name) := by
    rw [hjoin]
    exact goAbs_abs_fixed rfl hfullgood
  have hcond : (pathChars (goAbs cwd base)).isPrefixOf
      (pathChars (goAbs cwd (goJoin base (normalizeEntry name)))) = true := by
    rw [habsbase, habsfull, hjoin]
    obtain ⟨t, ht⟩ := joinSegs_pref base.segs ((normalizeEntry name).segs.filter keepSeg)
    have hbase : pathChars base = '/' :: joinSegs base.segs := by
      unfold pathChars; rw [if_pos hb]
    have hfull : pathChars ⟨true, base.segs ++ (normalizeEntry name).segs.filter keepSeg⟩ =
        ('/' :: joinSegs base.segs) ++ t := by
      unfold pathChars
      simp only [if_pos]
      rw [← ht]
      simp
    rw [hbase, hfull]
    exact isPrefixOf_app _ t
  unfold sanitizePath
  have hdd' : containsDotDot (trimBackslash (trimSep (trimSep (goClean name)))) = false := h
  have habs' : (trimBackslash (trimSep (trimSep (goClean name)))).isAbs = false := habs
  have hcond' : (pathChars (goAbs cwd base)).isPrefixOf
      (pathChars (goAbs cwd (goJoin base
        (trimBackslash (trimSep (trimSep (goClean name))))))) = true := hcond
  rw [if_neg (by simp [hdd']), if_neg (by simp [habs'])]
  simp only
  rw [if_pos (by exact hcond')]
  rfl

end Autopsy

namespace Autopsy

lemma sanitizePath_error_of_dotdot {cwd base name : GoPath}
    (hdd : containsDotDot (normalizeEntry name) = true) :
    sanitizePath cwd name base = .error .containsDotDot := by
  unfold sanitizePath
  have hdd' : containsDotDot (trimBackslash (trimSep (trimSep (goClean name)))) = true := hdd
  rw [if_pos (by exact hdd')]

lemma extractLoop_skip {cfg : ExtractConfig} {cwd baseDir : GoPath}
    {uploadID total : Nat} {e : ZipEntry} {rest : List ZipEntry}
    {st : ExtractState} {err : SanitizeError}
    (herr : sanitizePath cwd e.name baseDir = .error err)
    (hcount : st.fileCount < cfg.maxExtractedFiles) :
    extractLoop cfg cwd baseDir uploadID total (e :: rest) st =
      extractLoop cfg cwd baseDir uploadID total rest st := by
  rw [extractLoop, if_neg (by omega), herr]

/-- C1: an archive entry whose normalized path resolves outside the
extraction destination fails `sanitizePath`, and an entry failing
`sanitizePath` is skipped by the `ExtractUpload` loop: no file is
written and no `Extraction` record is created for it, and the remaining
entries are processed exactly as if the entry were absent. -/
theorem extractUpload_skips_entries_resolving_outside
    (cwd baseDir : GoPath) (hb : baseDir.isAbs = true)
    (hgood : GoodDirSegs baseDir.segs) :
    (∀ name, resolvesOutside baseDir name →
      ∃ err, sanitizePath cwd name baseDir = .error err) ∧
    (∀ (cfg : ExtractConfig) (uploadID total : Nat) (e : ZipEntry)
        (rest : List ZipEntry) (st : ExtractState) (err : SanitizeError),
      sanitizePath cwd e.name baseDir = .error err →
      st.fileCount < cfg.maxExtractedFiles →
      extractLoop cfg cwd baseDir uploadID total (e :: rest) st =
        extractLoop cfg cwd baseDir uploadID total rest st) := by
  refine ⟨fun name hout => ?_, fun _ _ _ _ _ _ _ herr hcount => extractLoop_skip herr hcount⟩
  by_cases hdd : containsDotDot (normalizeEntry name) = true
  · exact ⟨.containsDotDot, sanitizePath_error_of_dotdot hdd⟩
  · exfalso
    apply hout
    have hddf : containsDotDot (normalizeEntry name) = false := by
      simpa using hdd
    have hjoin := goJoin_noDotDot hb hgood (containsDotDot_false hddf)
    rw [hjoin]
    exact ⟨hb.symm, isPrefixOf_app _ _⟩

/-- C4: once the accumulated uncompressed total of accepted entries would
exceed the configured maximum extraction size, the `ExtractUpload` loop
aborts immediately with the import record marked `"failed"` and the
limit-exceeded message, leaving the already-written files in place; and
whenever the loop aborts, `ExtractUpload` persists no `Extraction`
records, returns failure, and keeps the written files on disk. -/
theorem extractUpload_size_limit_aborts :
    (∀ (cfg : ExtractConfig) (cwd baseDir : GoPath) (uploadID total : Nat)
        (e : ZipEntry) (rest : List ZipEntry) (st : ExtractState) (p : GoPath),
      st.fileCount < cfg.maxExtractedFiles →
      sanitizePath cwd e.name baseDir = .ok p →
      cfg.maxExtractionSize < st.totalSize + e.uncompressedSize →
      extractLoop cfg cwd baseDir uploadID total (e :: rest) st =
        ({ st with imp := { st.imp with
             status := "failed"
             errorMessage := some (limitSizeMsg cfg) } }, false)) ∧
    (∀ (cfg : ExtractConfig) (cwd baseDir : GoPath) (uploadID : Nat)
        (entries : List ZipEntry),
      (extractLoop cfg cwd baseDir uploadID entries.length entries
        initialExtractState).2 = false →
      extractUpload cfg cwd baseDir uploadID entries =
        ⟨(extractLoop cfg cwd baseDir uploadID entries.length entries
            initialExtractState).1.imp, [],
         (extractLoop cfg cwd baseDir uploadID entries.length entries
            initialExtractState).1.written, false⟩) := by
  constructor
  · intro cfg cwd baseDir uploadID total e rest st p hcount hok hsize
    rw [extractLoop, if_neg (by omega), hok]
    simp only
    rw [if_pos (by omega)]
  · intro cfg cwd baseDir uploadID entries hfail
    rw [extractUpload, if_neg (by simp [hfail])]

end Autopsy

namespace Autopsy

instance (segs : List GoStr) : Decidable (GoodDirSegs segs) := by
  unfold GoodDirSegs; infer_instance

instance (b p : GoPath) : Decidable (insideBase b p) := by
  unfold insideBase; infer_instance

instance (b n : GoPath) : Decidable (resolvesOutside b n) := by
  unfold resolvesOutside; infer_instance

/-- A concrete extraction destination `/b` (absolute, well-formed). -/
def demoBase : GoPath := ⟨true, [['b']]⟩

/-- A concrete working directory `/`. -/
def demoCwd : GoPath := ⟨true, []⟩

/-- The classic escaping entry name `../../etc/passwd`. -/
def demoEscapingName : GoPath :=
  ⟨false, [['.', '.'], ['.', '.'], ['e', 't', 'c'], ['p', 'a', 's', 's', 'w', 'd']]⟩

/-- A harmless second entry. -/
def demoOkEntry : ZipEntry := ⟨⟨false, [['a']]⟩, 1, true⟩

/-- Witness for the C1 theorem at `../../etc/passwd` against base `/b`. -/
theorem extractUpload_skips_entries_resolving_outside_witness :
    resolvesOutside demoBase demoEscapingName ∧
    (∃ err, sanitizePath demoCwd demoEscapingName demoBase = .error err) ∧
    extractLoop ⟨100, 5⟩ demoCwd demoBase 1 2
        (⟨demoEscapingName, 3, true⟩ :: [demoOkEntry]) initialExtractState =
      extractLoop ⟨100, 5⟩ demoCwd demoBase 1 2 [demoOkEntry] initialExtractState := by
  have h := extractUpload_skips_entries_resolving_outside demoCwd demoBase rfl (by decide)
  refine ⟨by decide, h.1 demoEscapingName (by decide), ?_⟩
  exact h.2 ⟨100, 5⟩ 1 2 ⟨demoEscapingName, 3, true⟩ [demoOkEntry] initialExtractState
    .containsDotDot rfl (by decide)

/-- Witness for the C4 theorem: a 12-byte entry against a 10-byte size cap. -/
theorem extractUpload_size_limit_aborts_witness :
    initialExtractState.fileCount < (5 : Nat) ∧
    sanitizePath demoCwd (⟨false, [['a']]⟩ : GoPath) demoBase =
      .ok ⟨true, [['b'], ['a']]⟩ ∧
    (10 : Nat) < initialExtractState.totalSize + 12 ∧
    extractLoop ⟨10, 5⟩ demoCwd demoBase 1 1 [⟨⟨false, [['a']]⟩, 12, true⟩]
        initialExtractState =
      ({ initialExtractState with imp := { initialExtractState.imp with
           status := "failed"
           errorMessage := some (limitSizeMsg ⟨10, 5⟩) } }, false) ∧
    extractUpload ⟨10, 5⟩ demoCwd demoBase 1 [⟨⟨false, [['a']]⟩, 12, true⟩] =
      ⟨(extractLoop ⟨10, 5⟩ demoCwd demoBase 1 1 [⟨⟨false, [['a']]⟩, 12, true⟩]
          initialExtractState).1.imp, [],
       (extractLoop ⟨10, 5⟩ demoCwd demoBase 1 1 [⟨⟨false, [['a']]⟩, 12, true⟩]
          initialExtractState).1.written, false⟩ := by
  refine ⟨by decide, rfl, by decide, ?_, ?_⟩
  · exact extractUpload_size_limit_aborts.1 ⟨10, 5⟩ demoCwd demoBase 1 1
      ⟨⟨false, [['a']]⟩, 12, true⟩ [] initialExtractState ⟨true, [['b'], ['a']]⟩
      (by decide) rfl (by decide)
  · exact extractUpload_size_limit_aborts.2 ⟨10, 5⟩ demoCwd demoBase 1
      [⟨⟨false, [['a']]⟩, 12, true⟩] rfl

end Autopsy

namespace Autopsy

/-! ## Parser (`internal/services/parser.go`) -/

/-- `ContentData` (parser.go:70-73). -/
structure ContentData where
  contentType : String
  parts : List String
deriving DecidableEq

/-- `AuthorData` (parser.go:63-67); only the role is ever read. -/
structure AuthorData where
  role : String
deriving DecidableEq

/-- `MessageData` (parser.go:54-60). Of the free-form metadata map the
parser only reads `create_time` (a float of epoch seconds, truncated to
`int64`), modelled as an optional integer of seconds. -/
structure MessageData where
  id : String
  author : AuthorData
  content : ContentData
  status : String
  createTime : Option Int
deriving DecidableEq

/-- `MessageNode` (parser.go:46-51). -/
structure MessageNode where
  id : String
  message : Option MessageData
  parent : Option String
  children : List String
deriving DecidableEq

/-- A conversation's `mapping`: a Go `map[string]MessageNode` in one of
its iteration orders, modelled as an association list. Lookup is by key;
the list order stands for Go's unspecified map iteration order, so two
permutations of the same list denote the same map. -/
abbrev Mapping := List (String × MessageNode)

/-- `mapping[nodeID]` with its `exists` flag collapsed into `Option`. -/
def lookupNode (m : Mapping) (id : String) : Option MessageNode :=
  (m.find? fun kv => kv.1 == id).map (·.2)

/-- A `models.Message` record. `id` is the database primary key assigned
on insert (the parser creates rows with it still zero and never reads
it; the thread segmenter reads it back from stored rows). The metadata
JSON blob is not modelled (nothing in the verified code reads it). -/
structure Message where
  id : Nat
  conversationID : Nat
  messageID : Option String
  role : String
  content : String
  timestamp : Int
  messageIndex : Nat
deriving DecidableEq

/-- The content-parts concatenation of `traverseMessages`
(parser.go:287-294): parts joined with a blank-line separator. -/
def joinParts : List String → String
  | [] => ""
  | [p] => p
  | p :: rest => p ++ "\n\n" ++ joinParts rest

/-- The `models.Message` built for a finished node (parser.go:296-318):
content from the parts, timestamp from metadata `create_time` when
present, otherwise the processing instant `now`; the next sequence
index. -/
def mkMessage (cid : Nat) (msg : MessageData) (idx : Nat) (now : Int) : Message :=
  { id := 0
    conversationID := cid
    messageID := some msg.id
    role := msg.author.role
    content := joinParts msg.content.parts
    timestamp := msg.createTime.getD now
    messageIndex := idx }

/-- The `for _, childID := range node.Children` loop of
`traverseMessages`: fold the per-child traversal `f` over the children,
threading the (messages, next index) state left to right and propagating
a non-returning call. -/
def traverseChildrenWith
    (f : String → List Message × Nat → Option (List Message × Nat)) :
    List String → List Message × Nat → Option (List Message × Nat)
  | [], st => some st
  | c :: cs, st =>
    match f c st with
    | none => none
    | some st' => traverseChildrenWith f cs st'

/-- `traverseMessages` (parser.go:272-324) with explicit fuel bounding
the recursion depth: `none` means the recursion did not complete within
the given fuel. The Go code recurses with no visited set, so on suitable
(cyclic) inputs no fuel suffices. State is the accumulated message list
and the next sequence index. -/
def traverseFuel : Nat → Mapping → String → Nat → List Message × Nat → Int →
    Option (List Message × Nat)
  | 0, _, _, _, _, _ => none
  | fuel + 1, mapping, nodeID, cid, st, now =>
    match lookupNode mapping nodeID with
    | none => some st
    | some node =>
      match node.message with
      | none => some st
      | some msg =>
        if msg.status ≠ "finished_successfully" then
          traverseChildrenWith (fun c st' => traverseFuel fuel mapping c cid st' now)
            node.children st
        else
          traverseChildrenWith (fun c st' => traverseFuel fuel mapping c cid st' now)
            node.children (st.1 ++ [mkMessage cid msg st.2 now], st.2 + 1)

/-- Generic insertion step for the model of `sort.Slice` with an integer
key and `less` comparison. -/
def insertByKey {α : Type} (key : α → Int) (x : α) : List α → List α
  | [] => [x]
  | y :: ys => if key x < key y then x :: y :: ys else y :: insertByKey key x ys

/-- Model of `sort.Slice(l, func(i, j) { return key(l[i]) < key(l[j]) })`
(Go's sort is unstable, so any sorted permutation is a faithful result;
insertion sort is the deterministic representative). -/
def sortByKey {α : Type} (key : α → Int) : List α → List α
  | [] => []
  | x :: xs => insertByKey key x (sortByKey key xs)

/-- The root search inside `processMessages` (parser.go:247-254): the
first parentless node in map iteration order, empty string when none. -/
def findRootForProcess (mapping : Mapping) : String :=
  match mapping.find? (fun kv => kv.2.parent.isNone) with
  | some kv => kv.1
  | none => ""

/-- `processMessages` (parser.go:243-269): find the root, traverse, sort
by `MessageIndex`. `none` stands for a traversal that never returns. -/
def processMessages (fuel : Nat) (mapping : Mapping) (cid : Nat) (now : Int) :
    Option (List Message) :=
  let rootID := findRootForProcess mapping
  if rootID = "" then some []
  else
    match traverseFuel fuel mapping rootID cid ([], 0) now with
    | none => none
    | some (msgs, _) => some (sortByKey (fun m => (m.messageIndex : Int)) msgs)

/-- `findRootMessageID` (parser.go:326-338): first parentless node in map
iteration order, falling back to the first key, then `""`. -/
def findRootMessageID (mapping : Mapping) : String :=
  match mapping.find? (fun kv => kv.2.parent.isNone) with
  | some kv => kv.1
  | none =>
    match mapping.head? with
    | some kv => kv.1
    | none => ""

end Autopsy


namespace Autopsy

/-- The finished message carried by the self-referencing node. -/
def cycMsg : MessageData :=
  { id := "m", author := ⟨"user"⟩, content := ⟨"text", ["hi"]⟩, status := "finished_successfully", createTime := some 0 }

/-- A node that lists itself as its only child. -/
def cycNode : MessageNode :=
  { id := "a", message := some cycMsg, parent := none, children := ["a"] }

/-- A mapping with a cycle: node `"a"`'s children contain `"a"` itself. -/
def cyclicMapping : Mapping := [("a", cycNode)]

/-- C2 (code bug): `traverseMessages` tracks no visited nodes, so on the
cyclic mapping the recursion never returns — no fuel bound suffices. The
spec says a revisited node is dropped and the traversal terminates,
emitting each finished node exactly once. -/
theorem traverseMessages_diverges_on_cycle :
    ∀ (fuel cid : Nat) (st : List Message × Nat) (now : Int),
      traverseFuel fuel cyclicMapping "a" cid st now = none := by
  intro fuel
  induction fuel with
  | zero =>
    intro cid st now
    rw [traverseFuel]
  | succ n ih =>
    intro cid st now
    rw [traverseFuel]
    have hl : lookupNode cyclicMapping "a" = some cycNode := rfl
    rw [hl]
    simp only [cycNode, cycMsg]
    rw [if_neg (by simp)]
    rw [traverseChildrenWith]
    rw [ih cid _ now]

/-- One iteration order of a map with two parentless nodes. -/
def twoRootsA : Mapping :=
  [("b", ⟨"b", none, none, []⟩), ("a", ⟨"a", none, none, []⟩)]

/-- The other iteration order of the same map. -/
def twoRootsB : Mapping :=
  [("a", ⟨"a", none, none, []⟩), ("b", ⟨"b", none, none, []⟩)]

/-- C9 (code bug): `findRootMessageID` returns the first parentless node
in map iteration order with no deterministic tie-break, so the same map
(two iteration orders of one association list) yields two different
roots — root discovery, and with it the stored conversation identifier,
is not reproducible. -/
theorem findRootMessageID_order_dependent :
    twoRootsA.Perm twoRootsB ∧
    findRootMessageID twoRootsA = "b" ∧
    findRootMessageID twoRootsB = "a" ∧
    ("b" : String) ≠ "a" := by
  exact ⟨List.Perm.swap _ _ _, rfl, rfl, by decide⟩

end Autopsy

namespace Autopsy

lemma insertByKey_perm {α : Type} (key : α → Int) (x : α) :
    ∀ l, (insertByKey key x l).Perm (x :: l)
  | [] => List.Perm.refl _
  | y :: ys => by
    rw [insertByKey]
    by_cases h : key x < key y
    · rw [if_pos h]
    · rw [if_neg h]
      exact ((insertByKey_perm key x ys).cons y).trans (List.Perm.swap x y ys)

lemma sortByKey_perm {α : Type} (key : α → Int) :
    ∀ l, (sortByKey key l).Perm l
  | [] => List.Perm.refl _
  | x :: xs => (insertByKey_perm key x _).trans ((sortByKey_perm key xs).cons x)

lemma insertByKey_pairwise {α : Type} (key : α → Int) (x : α) :
    ∀ {l}, l.Pairwise (fun a b => key a ≤ key b) →
      (insertByKey key x l).Pairwise (fun a b => key a ≤ key b) := by
  intro l
  induction l with
  | nil => intro _; simp [insertByKey]
  | cons y ys ih =>
    intro h
    have hy := (List.pairwise_cons.mp h).1
    have hys := (List.pairwise_cons.mp h).2
    rw [insertByKey]
    by_cases hxy : key x < key y
    · rw [if_pos hxy]
      refine List.Pairwise.cons ?_ h
      intro b hb
      rcases List.mem_cons.mp hb with rfl | hb'
      · exact le_of_lt hxy
      · exact le_trans (le_of_lt hxy) (hy b hb')
    · rw [if_neg hxy]
      refine List.Pairwise.cons ?_ (ih hys)
      intro b hb
      rcases List.mem_cons.mp ((insertByKey_perm key x ys).mem_iff.mp hb) with rfl | hb'
      · exact le_of_not_lt hxy
      · exact hy b hb'

lemma sortByKey_pairwise {α : Type} (key : α → Int) :
    ∀ l, (sortByKey key l).Pairwise (fun a b => key a ≤ key b)
  | [] => List.Pairwise.nil
  | x :: xs => insertByKey_pairwise key x (sortByKey_pairwise key xs)

lemma sortByKey_eq_self {α : Type} (key : α → Int) :
    ∀ {l}, l.Pairwise (fun a b => key a < key b) → sortByKey key l = l := by
  intro l
  induction l with
  | nil => intro _; rfl
  | cons x xs ih =>
    intro h
    rw [sortByKey, ih (List.pairwise_cons.mp h).2]
    cases xs with
    | nil => rfl
    | cons y ys =>
      rw [insertByKey, if_pos ((List.pairwise_cons.mp h).1 y (by simp))]

/-- Relation between an input and an output traversal state: the output
extends the message list by a block of new messages carrying exactly the
consecutive sequence indices `idx, idx+1, …`, and the output index is
advanced by the block length. -/
def EmitsFrom (msgs : List Message) (idx : Nat) (out : List Message × Nat) : Prop :=
  ∃ new, out.1 = msgs ++ new ∧ out.2 = idx + new.length ∧
    new.map (·.messageIndex) = List.range' idx new.length

lemma traverseChildrenWith_emits
    {f : String → List Message × Nat → Option (List Message × Nat)}
    (hf : ∀ nodeID msgs idx out, f nodeID (msgs, idx) = some out → EmitsFrom msgs idx out) :
    ∀ cs msgs idx out, traverseChildrenWith f cs (msgs, idx) = some out →
      EmitsFrom msgs idx out := by
  intro cs
  induction cs with
  | nil =>
    intro msgs idx out h
    rw [traverseChildrenWith] at h
    injection h with h
    exact ⟨[], by simp [← h], by simp [← h], rfl⟩
  | cons c cs' ih =>
    intro msgs idx out h
    rw [traverseChildrenWith] at h
    cases hc : f c (msgs, idx) with
    | none => rw [hc] at h; cases h
    | some st1 =>
      rw [hc] at h
      obtain ⟨new1, h11, h12, h13⟩ := hf c msgs idx st1 hc
      obtain ⟨m1, i1⟩ := st1
      simp only at h11 h12
      subst h11 h12
      obtain ⟨new2, h21, h22, h23⟩ := ih _ _ _ h
      refine ⟨new1 ++ new2, by simp [h21], ?_, ?_⟩
      · simp only [h22, List.length_append]
        omega
      · rw [List.map_append, h13, h23, List.length_append]
        have hra := List.range'_append idx new1.length new2.length 1
        simp only [one_mul] at hra
        rw [Nat.add_comm new1.length new2.length]
        exact hra

lemma traverseFuel_emitsFrom :
    ∀ (fuel : Nat) (mapping : Mapping) (nodeID : String) (cid : Nat)
      (msgs : List Message) (idx : Nat) (now : Int) (out : List Message × Nat),
      traverseFuel fuel mapping nodeID cid (msgs, idx) now = some out →
      EmitsFrom msgs idx out := by
  intro fuel
  induction fuel with
  | zero =>
    intro mapping nodeID cid msgs idx now out h
    rw [traverseFuel] at h
    cases h
  | succ n ih =>
    intro mapping nodeID cid msgs idx now out h
    rw [traverseFuel] at h
    cases hl : lookupNode mapping nodeID with
    | none =>
      rw [hl] at h
      injection h with h
      exact ⟨[], by simp [← h], by simp [← h], rfl⟩
    | some node =>
      rw [hl] at h
      cases hm : node.message with
      | none =>
        simp only [hm] at h
        injection h with h
        exact ⟨[], by simp [← h], by simp [← h], rfl⟩
      | some msg =>
        simp only [hm] at h
        by_cases hs : msg.status ≠ "finished_successfully"
        · rw [if_pos hs] at h
          exact traverseChildrenWith_emits
            (fun nid m i o hh => ih mapping nid cid m i now o hh)
            node.children msgs idx out h
        · rw [if_neg hs] at h
          have hemit := traverseChildrenWith_emits
            (fun nid m i o hh => ih mapping nid cid m i now o hh)
            node.children (msgs ++ [mkMessage cid msg idx now]) (idx + 1) out
            (by simpa using h)
          obtain ⟨new, h1, h2, h3⟩ := hemit
          refine ⟨mkMessage cid msg idx now :: new, by simp [h1], ?_, ?_⟩
          · simp only [h2, List.length_cons]
            omega
          · rw [List.map_cons, h3, List.length_cons, List.range'_succ]
            simp [mkMessage]

end Autopsy

namespace Autopsy

/-- Sum of `f` over a children list (companion of `finishedReachable`). -/
def finishedReachableWith (f : String → Nat) : List String → Nat
  | [] => 0
  | c :: cs => f c + finishedReachableWith f cs

/-- Modelled from the claim's words: the number of nodes carrying a
finished message payload reachable from `id` along `children` edges
(fuel-bounded; on a rooted tree any fuel exceeding the depth gives the
exact count). Used only to state claim C3 about the parser. -/
def finishedReachable : Nat → Mapping → String → Nat
  | 0, _, _ => 0
  | fuel + 1, mapping, id =>
    match lookupNode mapping id with
    | none => 0
    | some node =>
      (if node.message.map (·.status) = some "finished_successfully" then 1 else 0) +
        finishedReachableWith (finishedReachable fuel mapping) node.children

/-- The finished message of the root of the pruning counterexample. -/
def pruneRootMsg : MessageData :=
  { id := "mr", author := ⟨"user"⟩, content := ⟨"text", ["root"]⟩, status := "finished_successfully", createTime := some 0 }

/-- The finished message of the grandchild of the pruning counterexample. -/
def pruneLeafMsg : MessageData :=
  { id := "mc", author := ⟨"assistant"⟩, content := ⟨"text", ["leaf"]⟩, status := "finished_successfully", createTime := some 10 }

/-- A rooted tree (no cycle): finished root `"r"`; its child `"m"` has a
nil message payload; `"m"`'s child `"c"` is finished. -/
def pruneMapping : Mapping :=
  [("r", ⟨"r", some pruneRootMsg, none, ["m"]⟩),
   ("m", ⟨"m", none, some "r", ["c"]⟩),
   ("c", ⟨"c", some pruneLeafMsg, some "m", []⟩)]

/-- C3 counterexample: the rooted tree `pruneMapping` has 2 finished
nodes reachable from its root, but the parser emits only 1 Message: a
node with a nil message payload ends its branch — its children are not
visited (only a node with an unfinished but present payload passes
through to its children). -/
theorem processMessages_prunes_nil_payload_subtree :
    finishedReachable 5 pruneMapping "r" = 2 ∧
    (processMessages 5 pruneMapping 1 0).map List.length = some 1 := ⟨rfl, rfl⟩

/-- C3 (amended): whenever the traversal completes, the emitted messages
carry exactly the sequence indices `0..N-1`, strictly increasing in
visit (pre-)order with no gaps (the final `sort.Slice` by index is the
identity); a node with a present-but-unfinished payload emits nothing
and its children are visited; a node with a nil payload emits nothing
and ends the branch (children not visited). -/
theorem processMessages_preorder_contiguous :
    (∀ (fuel : Nat) (mapping : Mapping) (cid : Nat) (now : Int) (msgs : List Message),
       processMessages fuel mapping cid now = some msgs →
       msgs.map (·.messageIndex) = List.range msgs.length) ∧
    (∀ (fuel : Nat) (mapping : Mapping) (nodeID : String) (cid : Nat)
       (st : List Message × Nat) (now : Int) (node : MessageNode) (msg : MessageData),
       lookupNode mapping nodeID = some node → node.message = some msg →
       msg.status ≠ "finished_successfully" →
       traverseFuel (fuel + 1) mapping nodeID cid st now =
         traverseChildrenWith (fun c st' => traverseFuel fuel mapping c cid st' now)
           node.children st) ∧
    (∀ (fuel : Nat) (mapping : Mapping) (nodeID : String) (cid : Nat)
       (st : List Message × Nat) (now : Int) (node : MessageNode),
       lookupNode mapping nodeID = some node → node.message = none →
       traverseFuel (fuel + 1) mapping nodeID cid st now = some st) := by
  refine ⟨?_, ?_, ?_⟩
  · intro fuel mapping cid now msgs h
    simp only [processMessages] at h
    by_cases hr : findRootForProcess mapping = ""
    · rw [if_pos hr] at h
      injection h with h
      simp [← h]
    · rw [if_neg hr] at h
      cases ht : traverseFuel fuel mapping (findRootForProcess mapping) cid ([], 0) now with
      | none => rw [ht] at h; cases h
      | some st =>
        rw [ht] at h
        obtain ⟨m, i⟩ := st
        injection h with h
        obtain ⟨new, h1, h2, h3⟩ :=
          traverseFuel_emitsFrom fuel mapping (findRootForProcess mapping) cid [] 0 now (m, i) ht
        simp only [List.nil_append] at h1
        have hsort : sortByKey (fun mm => (mm.messageIndex : Int)) m = m := by
          apply sortByKey_eq_self
          have hpl : List.Pairwise (· < ·) (m.map (·.messageIndex)) := by
            rw [h1, h3]
            exact List.pairwise_lt_range' 0 new.length
          have hp := List.pairwise_map.mp hpl
          exact hp.imp fun hab => by exact_mod_cast hab
        rw [hsort] at h
        subst h
        rw [List.range_eq_range', h1]
        simpa using h3
  · intro fuel mapping nodeID cid st now node msg hl hm hs
    rw [traverseFuel]
    simp only [hl, hm]
    rw [if_pos hs]
  · intro fuel mapping nodeID cid st now node hl hm
    rw [traverseFuel]
    simp only [hl, hm]

/-- The single message emitted by the parser on `pruneMapping`. -/
def pruneEmitted : Message :=
  { id := 0, conversationID := 1, messageID := some "mr", role := "user", content := "root", timestamp := 0, messageIndex := 0 }

/-- An unfinished-payload node (status `"in_progress"`) with a child. -/
def unfinMsg : MessageData :=
  { id := "mu", author := ⟨"user"⟩, content := ⟨"text", ["x"]⟩, status := "in_progress", createTime := none }

/-- A mapping whose root has an unfinished payload. -/
def unfinMapping : Mapping := [("u", ⟨"u", some unfinMsg, none, ["v"]⟩)]

/-- Witness for the amended C3 theorem at concrete inputs. -/
theorem processMessages_preorder_contiguous_witness :
    (processMessages 5 pruneMapping 1 0 = some [pruneEmitted] ∧
     [pruneEmitted].map (·.messageIndex) = List.range 1) ∧
    (lookupNode unfinMapping "u" = some ⟨"u", some unfinMsg, none, ["v"]⟩ ∧
     unfinMsg.status ≠ "finished_successfully" ∧
     traverseFuel 3 unfinMapping "u" 1 ([], 0) 7 =
       traverseChildrenWith (fun c st' => traverseFuel 2 unfinMapping c 1 st' 7)
         ["v"] ([], 0)) ∧
    (lookupNode pruneMapping "m" = some ⟨"m", none, some "r", ["c"]⟩ ∧
     traverseFuel 3 pruneMapping "m" 1 ([], 0) 7 = some ([], 0)) := by
  refine ⟨⟨rfl, ?_⟩, ⟨rfl, by decide, ?_⟩, ⟨rfl, ?_⟩⟩
  · exact processMessages_preorder_contiguous.1 5 pruneMapping 1 0 [pruneEmitted] rfl
  · exact processMessages_preorder_contiguous.2.1 2 unfinMapping "u" 1 ([], 0) 7
      ⟨"u", some unfinMsg, none, ["v"]⟩ unfinMsg rfl rfl (by decide)
  · exact processMessages_preorder_contiguous.2.2 2 pruneMapping "m" 1 ([], 0) 7
      ⟨"m", none, some "r", ["c"]⟩ rfl rfl

end Autopsy

namespace Autopsy

/-- A `models.Conversation` record. -/
structure ConversationRec where
  id : Nat
  uploadID : Nat
  conversationID : String
  title : Option String
  createdAt : Int
  updatedAt : Int
  sourceFilePath : String
  messageCount : Nat
deriving DecidableEq

/-- `ChatGPTConversation` (parser.go:38-43); `create_time`/`update_time`
floats truncated to int64 epoch seconds. -/
structure ChatGPTConversation where
  title : String
  createTime : Int
  updateTime : Int
  mapping : Mapping
deriving DecidableEq

/-- The conversation- and message-tables of the database as the parser
sees them, plus the next auto-assigned primary key. -/
structure ParserDB where
  conversations : List ConversationRec
  messages : List Message
  nextConvID : Nat
deriving DecidableEq

/-- `processConversation` (parser.go:189-240) with fuel for the
traversal: build the record, return the existing record untouched when
one with the same `(upload_id, conversation_id)` exists, otherwise
insert the conversation, traverse and batch-insert its messages (the
batch slicing concatenates to the same row sequence). `none` stands for
a traversal that never returns. The auxiliary per-date text files are
modelled separately (`extractUserMessagesByDate`). -/
def processConversation (fuel : Nat) (db : ParserDB) (conv : ChatGPTConversation)
    (uploadID : Nat) (sourcePath : String) (now : Int) :
    Option (ParserDB × ConversationRec × Nat) :=
  let convID := findRootMessageID conv.mapping
  match db.conversations.find? (fun c => c.uploadID == uploadID && c.conversationID == convID) with
  | some existing => some (db, existing, existing.messageCount)
  | none =>
    let conversation : ConversationRec :=
      { id := db.nextConvID
        uploadID := uploadID
        conversationID := convID
        title := some conv.title
        createdAt := conv.createTime
        updatedAt := conv.updateTime
        sourceFilePath := sourcePath
        messageCount := 0 }
    let db1 := { db with
                 conversations := db.conversations ++ [conversation]
                 nextConvID := db.nextConvID + 1 }
    match processMessages fuel conv.mapping conversation.id now with
    | none => none
    | some messages =>
      some ({ db1 with messages := db1.messages ++ messages }, conversation, messages.length)

/-- `database.DB.Save(&convRecord)`: update the row with the same
primary key. GORM's name convention sets the struct's `UpdatedAt` field
to the current time on every update it issues (db.go configures the
`NowFunc` used for it), so the saved row's `updatedAt` becomes the save
instant; all other fields are written as given. -/
def saveConversation (db : ParserDB) (c : ConversationRec) (now : Int) : ParserDB :=
  { db with conversations := db.conversations.map fun x =>
      if x.id = c.id then { c with updatedAt := now } else x }

/-- The caller's update in `parseConversationFile` (parser.go:180-182):
set the returned record's `MessageCount` to the returned count and save
it (the save instant modelled by the same processing instant `now`). -/
def processConversationAndSave (fuel : Nat) (db : ParserDB) (conv : ChatGPTConversation)
    (uploadID : Nat) (sourcePath : String) (now : Int) : Option (ParserDB × Nat) :=
  match processConversation fuel db conv uploadID sourcePath now with
  | none => none
  | some (db', rec, msgCount) =>
    some (saveConversation db' { rec with messageCount := msgCount } now, msgCount)

/-- C7 (amended): re-running the parser on an already-imported
conversation (same upload and external conversation identifier) creates
no Conversation or Message records and returns the existing record and
its stored message count; the caller's follow-up save then rewrites the
stored row with the values it already has EXCEPT that GORM refreshes the
row's `UpdatedAt` column to the save instant — re-parsing is a no-op up
to that timestamp touch, and nothing else in the database changes. -/
theorem parser_reparse_noop (fuel : Nat) (db : ParserDB) (conv : ChatGPTConversation)
    (uploadID : Nat) (sourcePath : String) (now : Int) (existing : ConversationRec)
    (hfind : db.conversations.find? (fun c => c.uploadID == uploadID &&
        c.conversationID == findRootMessageID conv.mapping) = some existing) :
    processConversation fuel db conv uploadID sourcePath now =
      some (db, existing, existing.messageCount) ∧
    processConversationAndSave fuel db conv uploadID sourcePath now =
      some ({ db with conversations := db.conversations.map fun x =>
          if x.id = existing.id then { existing with updatedAt := now } else x },
        existing.messageCount) := by
  have h1 : processConversation fuel db conv uploadID sourcePath now =
      some (db, existing, existing.messageCount) := by
    rw [processConversation]
    simp only [hfind]
  refine ⟨h1, ?_⟩
  rw [processConversationAndSave]
  simp only [h1]
  rfl

end Autopsy

namespace Autopsy

/-- An already-imported conversation record (stored `updatedAt` 0). -/
def demoConvRec : ConversationRec :=
  { id := 7, uploadID := 3, conversationID := "root1", title := some "t", createdAt := 0, updatedAt := 0, sourceFilePath := "f.json", messageCount := 4 }

/-- A database already holding `demoConvRec`. -/
def demoParserDB : ParserDB :=
  { conversations := [demoConvRec], messages := [], nextConvID := 8 }

/-- The same conversation arriving again from the export. -/
def demoConv : ChatGPTConversation :=
  { title := "t", createTime := 0, updateTime := 0, mapping := [("root1", ⟨"root1", none, none, []⟩)] }

/-- C7 counterexample: re-parsing the already-imported conversation at
instant 99 returns the existing record and creates nothing, but the
caller's save (via GORM's automatic `UpdatedAt`) rewrites the stored
row's `updatedAt` from 0 to 99 — the Conversation record IS modified,
so the re-parse is not the strict no-op the claim states. -/
theorem parser_reparse_touches_updatedAt :
    processConversation 5 demoParserDB demoConv 3 "f.json" 99 =
      some (demoParserDB, demoConvRec, 4) ∧
    processConversationAndSave 5 demoParserDB demoConv 3 "f.json" 99 =
      some ({ demoParserDB with
              conversations := [{ demoConvRec with updatedAt := 99 }] }, 4) ∧
    ({ demoConvRec with updatedAt := 99 } : ConversationRec) ≠ demoConvRec ∧
    ({ demoParserDB with
       conversations := [{ demoConvRec with updatedAt := 99 }] } : ParserDB) ≠
      demoParserDB :=
  ⟨rfl, rfl, by decide, by decide⟩

/-- Witness for the amended C7 theorem at a concrete database. -/
theorem parser_reparse_noop_witness :
    demoParserDB.conversations.find? (fun c => c.uploadID == 3 &&
      c.conversationID == findRootMessageID demoConv.mapping) = some demoConvRec ∧
    processConversation 5 demoParserDB demoConv 3 "f.json" 99 =
      some (demoParserDB, demoConvRec, 4) ∧
    processConversationAndSave 5 demoParserDB demoConv 3 "f.json" 99 =
      some ({ demoParserDB with
              conversations := demoParserDB.conversations.map fun x =>
                if x.id = demoConvRec.id then { demoConvRec with updatedAt := 99 }
                else x }, 4) := by
  have h := parser_reparse_noop 5 demoParserDB demoConv 3 "f.json" 99 demoConvRec rfl
  exact ⟨rfl, h.1, h.2⟩

end Autopsy

namespace Autopsy

/-! ## UTC date formatting and keyed grouping -/

/-- Decimal digits of `n`, zero-padded to width `w`. -/
def padNat (w n : Nat) : String :=
  let s := toString n
  if s.length < w then String.mk (List.replicate (w - s.length) '0') ++ s else s

/-- Civil date from days since 1970-01-01 (proleptic Gregorian; Howard
Hinnant's algorithm — every division here acts on non-negative
operands, so Lean's truncating `Int` division agrees with the floor
division the algorithm needs). -/
def civilFromDays (z0 : Int) : Int × Nat × Nat :=
  let z := z0 + 719468
  let era : Int := (if 0 ≤ z then z else z - 146096) / 146097
  let doe : Int := z - era * 146097
  let yoe : Int := (doe - doe / 1460 + doe / 36524 - doe / 146096) / 365
  let y : Int := yoe + era * 400
  let doy : Int := doe - (365 * yoe + yoe / 4 - yoe / 100)
  let mp : Int := (5 * doy + 2) / 153
  let d : Int := doy - (153 * mp + 2) / 5 + 1
  let m : Int := if mp < 10 then mp + 3 else mp - 9
  (if m ≤ 2 then y + 1 else y, m.toNat, d.toNat)

/-- `t.UTC().Format("2006-01-02")` for an epoch-seconds instant. -/
def formatDate (ts : Int) : String :=
  let days := Int.ediv ts 86400
  let c := civilFromDays days
  (if c.1 < 0 then "-" ++ padNat 4 (-c.1).toNat else padNat 4 c.1.toNat) ++
    "-" ++ padNat 2 c.2.1 ++ "-" ++ padNat 2 c.2.2

/-- `t.UTC().Format("15:04:05")` for an epoch-seconds instant. -/
def formatClock (ts : Int) : String :=
  let secs := (Int.emod ts 86400).toNat
  padNat 2 (secs / 3600) ++ ":" ++ padNat 2 (secs % 3600 / 60) ++ ":" ++
    padNat 2 (secs % 60)

/-- One step of building a Go `map[string][]T` by appended inserts:
append `x` to the bucket keyed `k`, or start a new bucket. Bucket order
is first-occurrence order — it stands for one iteration order of the Go
map (which is unspecified); every property proved about the groups is
order-independent. -/
def bucketAdd {α : Type} (acc : List (String × List α)) (k : String) (x : α) :
    List (String × List α) :=
  if (acc.find? fun kv => kv.1 == k).isSome then
    acc.map fun kv => if kv.1 == k then (kv.1, kv.2 ++ [x]) else kv
  else acc ++ [(k, [x])]

/-- Group a list by a string key, buckets in encounter order. -/
def groupByKey {α : Type} (key : α → String) (l : List α) :
    List (String × List α) :=
  l.foldl (fun acc x => bucketAdd acc (key x) x) []

/-- `acc` is the bucket list of `processed` grouped by `key`: distinct
keys, every bucket the (nonempty) sublist of its key's elements in
order, every processed element covered. -/
def GroupsOf {α : Type} (key : α → String) (processed : List α)
    (acc : List (String × List α)) : Prop :=
  (acc.map Prod.fst).Nodup ∧
  (∀ kv ∈ acc, kv.2 = processed.filter (fun x => key x == kv.1) ∧ kv.2 ≠ []) ∧
  (∀ x ∈ processed, (key x) ∈ acc.map Prod.fst)

lemma bucketAdd_groups {α : Type} {key : α → String} {processed : List α}
    {acc : List (String × List α)} (h : GroupsOf key processed acc) (x : α) :
    GroupsOf key (processed ++ [x]) (bucketAdd acc (key x) x) := by
  obtain ⟨hnd, hbuck, hcov⟩ := h
  rw [bucketAdd]
  by_cases hf : (acc.find? fun kv => kv.1 == key x).isSome
  · rw [if_pos hf]
    have hfst : (acc.map fun kv => if kv.1 == key x then (kv.1, kv.2 ++ [x]) else kv).map
        Prod.fst = acc.map Prod.fst := by
      rw [List.map_map]
      apply List.map_congr_left
      intro kv _
      simp only [Function.comp_apply]
      split <;> rfl
    refine ⟨by rw [hfst]; exact hnd, ?_, ?_⟩
    · intro kv hkv
      obtain ⟨kv0, hkv0, hkveq⟩ := List.mem_map.mp hkv
      by_cases hk : kv0.1 == key x
      · rw [if_pos hk] at hkveq
        subst hkveq
        have hkeq : key x = kv0.1 := (eq_of_beq hk).symm
        constructor
        · rw [List.filter_append, ← (hbuck kv0 hkv0).1]
          simp [hkeq]
        · simp
      · rw [if_neg hk] at hkveq
        subst hkveq
        constructor
        · rw [List.filter_append, ← (hbuck kv0 hkv0).1]
          have hne : ¬ (key x == kv0.1) = true := fun hc => hk (by simp [eq_of_beq hc])
          simp [hne]
        · exact (hbuck kv0 hkv0).2
    · intro y hy
      rcases List.mem_append.mp hy with hy' | hy'
      · rw [hfst]; exact hcov y hy'
      · simp only [List.mem_singleton] at hy'
        subst hy'
        rw [hfst]
        obtain ⟨kv0, hkv0, hkv0k⟩ := List.find?_isSome.mp hf
        rw [← eq_of_beq hkv0k]
        exact List.mem_map_of_mem _ hkv0
  · rw [if_neg hf]
    have hnone : acc.find? (fun kv => kv.1 == key x) = none := by
      cases hfind : acc.find? (fun kv => kv.1 == key x) with
      | none => rfl
      | some kv => rw [hfind] at hf; simp at hf
    have hknot : (key x) ∉ acc.map Prod.fst := by
      intro hmem
      obtain ⟨kv0, hkv0, hkfst⟩ := List.mem_map.mp hmem
      have hz := List.find?_eq_none.mp hnone kv0 hkv0
      simp [hkfst] at hz
    refine ⟨?_, ?_, ?_⟩
    · rw [List.map_append]
      simp [List.nodup_append, hnd, hknot]
    · intro kv hkv
      rcases List.mem_append.mp hkv with hkv' | hkv'
      · have hne := List.find?_eq_none.mp hnone kv hkv'
        constructor
        · rw [List.filter_append, ← (hbuck kv hkv').1]
          have hne' : ¬ (key x == kv.1) = true := fun hc => by
            rw [eq_of_beq hc] at hne
            simp at hne
          simp [hne']
        · exact (hbuck kv hkv').2
      · simp only [List.mem_singleton] at hkv'
        subst hkv'
        constructor
        · rw [List.filter_append]
          have hpf : processed.filter (fun z => key z == key x) = [] := by
            rw [List.filter_eq_nil_iff]
            intro z hz hc
            have hm := hcov z hz
            rw [eq_of_beq hc] at hm
            exact hknot hm
          simp [hpf]
        · simp
    · intro y hy
      rcases List.mem_append.mp hy with hy' | hy'
      · rw [List.map_append]
        exact List.mem_append_left _ (hcov y hy')
      · simp only [List.mem_singleton] at hy'
        subst hy'
        rw [List.map_append]
        simp

lemma groupByKey_groups_aux {α : Type} (key : α → String) :
    ∀ (l processed : List α) (acc : List (String × List α)),
      GroupsOf key processed acc →
      GroupsOf key (processed ++ l)
        (l.foldl (fun acc x => bucketAdd acc (key x) x) acc)
  | [], processed, acc, h => by simpa using h
  | x :: l', processed, acc, h => by
    have h1 := bucketAdd_groups h x
    have h2 := groupByKey_groups_aux key l' (processed ++ [x]) _ h1
    simpa using h2

/-- `groupByKey` really groups: distinct keys, each bucket is the
in-order sublist of its key's elements and is nonempty, and every
element's key has a bucket. -/
lemma groupByKey_groups {α : Type} (key : α → String) (l : List α) :
    GroupsOf key l (groupByKey key l) := by
  have h := groupByKey_groups_aux key l [] [] ⟨by simp, by simp, by simp⟩
  simpa [groupByKey] using h

end Autopsy

namespace Autopsy

/-! ## Thread segmentation (`internal/services/thread.go`) -/

/-- A `models.Thread` record. -/
structure ThreadRec where
  conversationID : Nat
  date : String
  messageCount : Nat
  startMessageID : Option Nat
  endMessageID : Option Nat
  startTimestamp : Int
  endTimestamp : Int
deriving DecidableEq

/-- The per-bucket loop of `createThreadsForConversation`
(thread.go:129-183): skip empty buckets and buckets whose
`(conversation, date)` thread already exists; sort the bucket by
timestamp; take first and last as start/end; fail the run on a
conversation mismatch or a start after end (the date-mismatch check
only logs a warning); otherwise produce the thread. The first match arm
is unreachable (sorting a nonempty bucket is nonempty) and mirrors the
skip of an empty bucket. -/
def buildThreads (existing : List ThreadRec) (cid : Nat) :
    List (String × List Message) → Except String (List ThreadRec)
  | [] => .ok []
  | (date, dateMessages) :: rest =>
    if dateMessages = [] then buildThreads existing cid rest
    else if (existing.find? fun t => t.conversationID == cid && t.date == date).isSome then
      buildThreads existing cid rest
    else
      match sortByKey (fun m => m.timestamp) dateMessages with
      | [] => buildThreads existing cid rest
      | s0 :: srest =>
        if s0.conversationID ≠ cid ∨
            (srest.getLastD s0).conversationID ≠ cid then
          .error "message conversation mismatch"
        else if (srest.getLastD s0).timestamp <
            s0.timestamp then
          .error "start timestamp after end timestamp"
        else
          match buildThreads existing cid rest with
          | .error e => .error e
          | .ok ts =>
            .ok ({ conversationID := cid
                   date := date
                   messageCount := dateMessages.length
                   startMessageID := some s0.id
                   endMessageID :=
                     some (srest.getLastD s0).id
                   startTimestamp := s0.timestamp
                   endTimestamp :=
                     (srest.getLastD s0).timestamp } :: ts)

/-- `createThreadsForConversation` (thread.go:103-200): query the
conversation's messages ordered by timestamp, bucket them by UTC date,
build one thread per new bucket, and return the threads with their
count (batch creation concatenates to the same row sequence). -/
def createThreadsForConversation (dbMsgs : List Message)
    (existing : List ThreadRec) (cid : Nat) :
    Except String (List ThreadRec × Nat) :=
  let messages := sortByKey (fun m => m.timestamp)
    (dbMsgs.filter fun m => m.conversationID == cid)
  if messages = [] then .ok ([], 0)
  else
    match buildThreads existing cid
        (groupByKey (fun m => formatDate m.timestamp) messages) with
    | .error e => .error e
    | .ok threads => .ok (threads, threads.length)

lemma pairwise_head_le {α : Type} {key : α → Int} {x : α} {l : List α}
    (h : (x :: l).Pairwise (fun a b => key a ≤ key b)) :
    ∀ m ∈ x :: l, key x ≤ key m := by
  intro m hm
  rcases List.mem_cons.mp hm with rfl | hm'
  · exact le_refl _
  · exact (List.pairwise_cons.mp h).1 m hm'

lemma pairwise_le_getLast {α : Type} {key : α → Int} :
    ∀ {l : List α} (hne : l ≠ []),
      l.Pairwise (fun a b => key a ≤ key b) →
      ∀ m ∈ l, key m ≤ key (l.getLast hne)
  | [], hne, _, _, _ => absurd rfl hne
  | [x], _, _, m, hm => by
    simp only [List.mem_singleton] at hm
    subst hm
    simp
  | x :: y :: l', _, h, m, hm => by
    have htail := (List.pairwise_cons.mp h).2
    have hlast : (x :: y :: l').getLast (List.cons_ne_nil _ _) =
        (y :: l').getLast (List.cons_ne_nil _ _) := by
      rw [List.getLast_cons]
    rcases List.mem_cons.mp hm with rfl | hm'
    · rw [hlast]
      exact le_trans ((List.pairwise_cons.mp h).1 y (by simp))
        (pairwise_le_getLast (List.cons_ne_nil _ _) htail y (by simp))
    · rw [hlast]
      exact pairwise_le_getLast (List.cons_ne_nil _ _) htail m hm'

end Autopsy

namespace Autopsy

/-- What `buildThreads` guarantees for each produced thread: its bucket
was new (no existing `(conversation, date)` thread), and its fields are
the head/last of the timestamp-sorted bucket. -/
lemma buildThreads_ok {existing : List ThreadRec} {cid : Nat} :
    ∀ (groups : List (String × List Message)) (ts : List ThreadRec),
      buildThreads existing cid groups = .ok ts →
      (ts.map (·.date)).Sublist (groups.map Prod.fst) ∧
      ∀ t ∈ ts,
        (existing.find? fun t' => t'.conversationID == cid && t'.date == t.date) = none ∧
        ∃ kv ∈ groups, kv.1 = t.date ∧
          ∃ s0 srest, sortByKey (fun m => m.timestamp) kv.2 = s0 :: srest ∧
            t = { conversationID := cid
                  date := kv.1
                  messageCount := kv.2.length
                  startMessageID := some s0.id
                  endMessageID := some (srest.getLastD s0).id
                  startTimestamp := s0.timestamp
                  endTimestamp :=
                    (srest.getLastD s0).timestamp } := by
  intro groups
  induction groups with
  | nil =>
    intro ts h
    rw [buildThreads] at h
    injection h with h
    subst h
    exact ⟨List.Sublist.refl _, by simp⟩
  | cons kv rest ih =>
    intro ts h
    obtain ⟨date, dm⟩ := kv
    rw [buildThreads] at h
    have skipCase : buildThreads existing cid rest = .ok ts →
        ((ts.map (·.date)).Sublist ((date, dm) :: rest |>.map Prod.fst) ∧
         ∀ t ∈ ts,
           (existing.find? fun t' => t'.conversationID == cid && t'.date == t.date) = none ∧
           ∃ kv ∈ (date, dm) :: rest, kv.1 = t.date ∧
             ∃ s0 srest, sortByKey (fun m => m.timestamp) kv.2 = s0 :: srest ∧
               t = { conversationID := cid
                     date := kv.1
                     messageCount := kv.2.length
                     startMessageID := some s0.id
                     endMessageID :=
                       some (srest.getLastD s0).id
                     startTimestamp := s0.timestamp
                     endTimestamp :=
                       (srest.getLastD s0).timestamp }) := by
      intro hrest
      obtain ⟨hsub, hmem⟩ := ih ts hrest
      refine ⟨hsub.cons _, ?_⟩
      intro t ht
      obtain ⟨hnone, kv', hkv', hrest'⟩ := hmem t ht
      exact ⟨hnone, kv', List.mem_cons_of_mem _ hkv', hrest'⟩
    by_cases hdm : dm = []
    · rw [if_pos hdm] at h
      exact skipCase h
    · rw [if_neg hdm] at h
      by_cases hex : (existing.find? fun t => t.conversationID == cid && t.date == date).isSome
      · rw [if_pos hex] at h
        exact skipCase h
      · rw [if_neg hex] at h
        cases hsort : sortByKey (fun m => m.timestamp) dm with
        | nil =>
          simp only [hsort] at h
          exact skipCase h
        | cons s0 srest =>
          simp only [hsort] at h
          by_cases hmis : s0.conversationID ≠ cid ∨
              (srest.getLastD s0).conversationID ≠ cid
          · rw [if_pos hmis] at h
            cases h
          · rw [if_neg hmis] at h
            by_cases hafter : (srest.getLastD s0).timestamp <
                s0.timestamp
            · rw [if_pos hafter] at h
              cases h
            · rw [if_neg hafter] at h
              cases hrest : buildThreads existing cid rest with
              | error e =>
                rw [hrest] at h
                cases h
              | ok ts' =>
                rw [hrest] at h
                injection h with h
                subst h
                obtain ⟨hsub, hmem⟩ := ih ts' hrest
                constructor
                · exact hsub.cons₂ _
                · intro t ht
                  rcases List.mem_cons.mp ht with rfl | ht'
                  · refine ⟨?_, (date, dm), List.mem_cons_self _ _, rfl, s0, srest, hsort, rfl⟩
                    exact Option.not_isSome_iff_eq_none.mp hex
                  · obtain ⟨hnone, kv', hkv', hrest'⟩ := hmem t ht'
                    exact ⟨hnone, kv', List.mem_cons_of_mem _ hkv', hrest'⟩

end Autopsy

namespace Autopsy

lemma getLastD_mem {α : Type} : ∀ (srest : List α) (s0 : α), srest.getLastD s0 ∈ s0 :: srest
  | [], s0 => by simp
  | y :: ys, s0 => by
    have hstep : (y :: ys).getLastD s0 = ys.getLastD y := by
      cases ys <;> simp [List.getLastD, List.getLast_cons]
    rw [hstep]
    exact List.mem_cons_of_mem s0 (getLastD_mem ys y)

lemma pairwise_le_getLastD {α : Type} {key : α → Int} :
    ∀ (srest : List α) (s0 : α),
      (s0 :: srest).Pairwise (fun a b => key a ≤ key b) →
      ∀ m ∈ s0 :: srest, key m ≤ key (srest.getLastD s0)
  | [], s0, _, m, hm => by
    simp only [List.mem_singleton] at hm
    subst hm
    simp [List.getLastD]
  | y :: ys, s0, h, m, hm => by
    have htail := (List.pairwise_cons.mp h).2
    have hstep : (y :: ys).getLastD s0 = ys.getLastD y := by
      cases ys <;> simp [List.getLastD, List.getLast_cons]
    rw [hstep]
    rcases List.mem_cons.mp hm with rfl | hm'
    · exact le_trans ((List.pairwise_cons.mp h).1 y (by simp))
        (pairwise_le_getLastD ys y htail y (by simp))
    · exact pairwise_le_getLastD ys y htail m hm'

/-- Everything a successful `createThreadsForConversation` run
guarantees: the count, pairwise-distinct dates, and, per thread, that
its `(conversation, date)` had no existing thread and that its fields
are head/last of the timestamp-sorted bucket of exactly the
conversation's messages of that date. -/
lemma createThreads_spec (dbMsgs : List Message) (existing : List ThreadRec)
    (cid : Nat) (threads : List ThreadRec) (n : Nat)
    (h : createThreadsForConversation dbMsgs existing cid = .ok (threads, n)) :
    n = threads.length ∧
    (threads.map (·.date)).Nodup ∧
    ∀ t ∈ threads,
      (existing.find? fun t' => t'.conversationID == cid && t'.date == t.date) = none ∧
      ∃ bucket : List Message,
        bucket ≠ [] ∧
        (∀ m ∈ bucket, m ∈ dbMsgs ∧ m.conversationID = cid ∧
          formatDate m.timestamp = t.date) ∧
        (∀ m ∈ dbMsgs, m.conversationID = cid → formatDate m.timestamp = t.date →
          m ∈ bucket) ∧
        ∃ s0 srest, sortByKey (fun m => m.timestamp) bucket = s0 :: srest ∧
          t = { conversationID := cid
                date := t.date
                messageCount := bucket.length
                startMessageID := some s0.id
                endMessageID := some (srest.getLastD s0).id
                startTimestamp := s0.timestamp
                endTimestamp := (srest.getLastD s0).timestamp } := by
  simp only [createThreadsForConversation] at h
  by_cases hempty : sortByKey (fun m => m.timestamp)
      (dbMsgs.filter fun m => m.conversationID == cid) = []
  · rw [if_pos hempty] at h
    injection h with h
    obtain ⟨rfl, rfl⟩ := Prod.mk.injEq .. |>.mp h.symm
    exact ⟨rfl, by simp, by simp⟩
  · rw [if_neg hempty] at h
    cases hb : buildThreads existing cid (groupByKey (fun m => formatDate m.timestamp)
        (sortByKey (fun m => m.timestamp) (dbMsgs.filter fun m => m.conversationID == cid))) with
    | error e =>
      simp only [hb] at h
      exact absurd h (by simp)
    | ok ts' =>
      simp only [hb] at h
      injection h with h
      have hthreads : threads = ts' := (Prod.mk.injEq .. |>.mp h.symm).1
      have hn : n = ts'.length := (Prod.mk.injEq .. |>.mp h.symm).2
      subst hthreads
      subst hn
      obtain ⟨hsub, hmem⟩ := buildThreads_ok _ threads hb
      have hgroups := groupByKey_groups (fun m => formatDate m.timestamp)
        (sortByKey (fun m => m.timestamp) (dbMsgs.filter fun m => m.conversationID == cid))
      refine ⟨rfl, hgroups.1.sublist hsub, ?_⟩
      intro t ht
      obtain ⟨hnone, kv, hkv, hdate, s0, srest, hsort, hteq⟩ := hmem t ht
      obtain ⟨hbuckfil, hbuckne⟩ := hgroups.2.1 kv hkv
      refine ⟨hnone, kv.2, hbuckne, ?_, ?_, s0, srest, hsort, by rw [hteq, hdate]⟩
      · intro m hm
        have hmf := hbuckfil ▸ hm
        obtain ⟨hmmess, hmdate⟩ := List.mem_filter.mp hmf
        have hmdb := (sortByKey_perm (fun m : Message => m.timestamp) _).mem_iff.mp hmmess
        obtain ⟨hmdb', hmcid⟩ := List.mem_filter.mp hmdb
        exact ⟨hmdb', by simpa using hmcid, by rw [← hdate]; exact eq_of_beq hmdate⟩
      · intro m hmdb hmcid hmdate
        have hmfil : m ∈ dbMsgs.filter fun m => m.conversationID == cid :=
          List.mem_filter.mpr ⟨hmdb, by simpa using hmcid⟩
        have hmmess := (sortByKey_perm (fun m : Message => m.timestamp) _).mem_iff.mpr hmfil
        rw [hbuckfil]
        refine List.mem_filter.mpr ⟨hmmess, ?_⟩
        show (formatDate m.timestamp == kv.1) = true
        simp [hmdate, hdate]

end Autopsy

namespace Autopsy

/-- C5: a successful segmentation run creates at most one Thread per
distinct UTC date present among the conversation's messages (the thread
dates are pairwise distinct and each is the UTC date of one of the
conversation's messages), and no Thread is created for a
`(conversation, date)` pair that already has one — re-running after
partial completion adds no duplicate. -/
theorem threadSegmenter_one_thread_per_date (dbMsgs : List Message)
    (existing : List ThreadRec) (cid : Nat) (threads : List ThreadRec) (n : Nat)
    (h : createThreadsForConversation dbMsgs existing cid = .ok (threads, n)) :
    (threads.map (·.date)).Nodup ∧
    (∀ t ∈ threads,
      (existing.find? fun t' => t'.conversationID == cid && t'.date == t.date) = none ∧
      ∃ m ∈ dbMsgs, m.conversationID = cid ∧ formatDate m.timestamp = t.date) ∧
    n = threads.length := by
  obtain ⟨hn, hnd, hmem⟩ := createThreads_spec dbMsgs existing cid threads n h
  refine ⟨hnd, ?_, hn⟩
  intro t ht
  obtain ⟨hnone, bucket, hne, hforward, -⟩ := hmem t ht
  obtain ⟨m0, hm0⟩ := List.exists_mem_of_ne_nil bucket hne
  obtain ⟨hmdb, hmcid, hmdate⟩ := hforward m0 hm0
  exact ⟨hnone, m0, hmdb, hmcid, hmdate⟩

/-- C6 (amended): every Thread a successful run creates belongs to the
segmented conversation, satisfies `startTimestamp ≤ endTimestamp`, and
its start/end references are the first and last message of its date
bucket by **timestamp** — the minimum/maximum timestamp among the
conversation's messages of that date (not the first/last by sequence
index). -/
theorem threads_wellformed (dbMsgs : List Message) (existing : List ThreadRec)
    (cid : Nat) (threads : List ThreadRec) (n : Nat)
    (h : createThreadsForConversation dbMsgs existing cid = .ok (threads, n)) :
    ∀ t ∈ threads,
      t.conversationID = cid ∧
      t.startTimestamp ≤ t.endTimestamp ∧
      (∃ ms ∈ dbMsgs, ms.conversationID = cid ∧ t.startMessageID = some ms.id ∧
        ms.timestamp = t.startTimestamp ∧ formatDate ms.timestamp = t.date ∧
        ∀ m ∈ dbMsgs, m.conversationID = cid → formatDate m.timestamp = t.date →
          ms.timestamp ≤ m.timestamp) ∧
      (∃ me ∈ dbMsgs, me.conversationID = cid ∧ t.endMessageID = some me.id ∧
        me.timestamp = t.endTimestamp ∧ formatDate me.timestamp = t.date ∧
        ∀ m ∈ dbMsgs, m.conversationID = cid → formatDate m.timestamp = t.date →
          m.timestamp ≤ me.timestamp) := by
  obtain ⟨hn, hnd, hmem⟩ := createThreads_spec dbMsgs existing cid threads n h
  intro t ht
  obtain ⟨hnone, bucket, hne, hforward, hbackward, s0, srest, hsort, hteq⟩ := hmem t ht
  have hpair : (s0 :: srest).Pairwise (fun a b => a.timestamp ≤ b.timestamp) := by
    have hp := sortByKey_pairwise (fun m : Message => m.timestamp) bucket
    rwa [hsort] at hp
  have hs0sorted : s0 ∈ sortByKey (fun m : Message => m.timestamp) bucket := by
    rw [hsort]; exact List.mem_cons_self s0 srest
  have hs0mem : s0 ∈ bucket :=
    (sortByKey_perm (fun m : Message => m.timestamp) bucket).mem_iff.mp hs0sorted
  have hlastsorted : srest.getLastD s0 ∈ sortByKey (fun m : Message => m.timestamp) bucket := by
    rw [hsort]; exact getLastD_mem srest s0
  have hlastmem : srest.getLastD s0 ∈ bucket :=
    (sortByKey_perm (fun m : Message => m.timestamp) bucket).mem_iff.mp hlastsorted
  obtain ⟨hs0db, hs0cid, hs0date⟩ := hforward s0 hs0mem
  obtain ⟨hldb, hlcid, hldate⟩ := hforward _ hlastmem
  refine ⟨by rw [hteq], ?_, ?_, ?_⟩
  · rw [hteq]
    exact pairwise_le_getLastD srest s0 hpair s0 (by simp)
  · refine ⟨s0, hs0db, hs0cid, by rw [hteq], by rw [hteq], hs0date, ?_⟩
    intro m hmdb hmcid hmdate
    have hmbucket := hbackward m hmdb hmcid hmdate
    have hmsorted : m ∈ sortByKey (fun m : Message => m.timestamp) bucket :=
      (sortByKey_perm (fun m : Message => m.timestamp) bucket).mem_iff.mpr hmbucket
    rw [hsort] at hmsorted
    exact pairwise_head_le hpair m hmsorted
  · refine ⟨srest.getLastD s0, hldb, hlcid, by rw [hteq], by rw [hteq], hldate, ?_⟩
    intro m hmdb hmcid hmdate
    have hmbucket := hbackward m hmdb hmcid hmdate
    have hmsorted : m ∈ sortByKey (fun m : Message => m.timestamp) bucket :=
      (sortByKey_perm (fun m : Message => m.timestamp) bucket).mem_iff.mpr hmbucket
    rw [hsort] at hmsorted
    exact pairwise_le_getLastD srest s0 hpair m hmsorted

/-- A conversation's stored message with the earlier sequence index but
the later timestamp. -/
def c6msgA : Message :=
  { id := 1, conversationID := 1, messageID := some "x", role := "user", content := "hello", timestamp := 200, messageIndex := 0 }

/-- The same conversation's message with the later sequence index but
the earlier timestamp (same UTC date). -/
def c6msgB : Message :=
  { id := 2, conversationID := 1, messageID := some "y", role := "assistant", content := "hi", timestamp := 100, messageIndex := 1 }

/-- The thread the code actually creates for these two messages. -/
def c6thread : ThreadRec :=
  { conversationID := 1, date := "1970-01-01", messageCount := 2,
    startMessageID := some 2, endMessageID := some 1,
    startTimestamp := 100, endTimestamp := 200 }

/-- Modelled from the claim's words: the first message of a bucket by
sequence index. Used only to state claim C6. -/
def firstBySeqIndex (msgs : List Message) : Option Message :=
  (sortByKey (fun m => (m.messageIndex : Int)) msgs).head?

/-- C6 counterexample: for a date bucket whose sequence-index order and
timestamp order disagree, the created thread's start reference is the
message with the minimal **timestamp** (id 2, sequence index 1), not the
bucket's first message by **sequence index** (id 1, sequence index 0),
refuting the claim that the start/end references are the first/last by
sequence index. -/
theorem thread_refs_not_by_sequence_index :
    createThreadsForConversation [c6msgA, c6msgB] [] 1 = .ok ([c6thread], 1) ∧
    firstBySeqIndex [c6msgB, c6msgA] = some c6msgA ∧
    c6msgA.id = 1 ∧
    c6thread.startMessageID = some 2 ∧
    (some 2 : Option Nat) ≠ some 1 := ⟨rfl, rfl, rfl, rfl, by decide⟩

/-- Witness for the C5 theorem at a concrete two-message conversation. -/
theorem threadSegmenter_one_thread_per_date_witness :
    createThreadsForConversation [c6msgA, c6msgB] [] 1 = .ok ([c6thread], 1) ∧
    (([c6thread].map (·.date)).Nodup ∧
     (∀ t ∈ [c6thread],
       (([] : List ThreadRec).find? fun t' => t'.conversationID == 1 &&
         t'.date == t.date) = none ∧
       ∃ m ∈ [c6msgA, c6msgB], m.conversationID = 1 ∧
         formatDate m.timestamp = t.date) ∧
     1 = [c6thread].length) :=
  ⟨rfl, threadSegmenter_one_thread_per_date [c6msgA, c6msgB] [] 1 [c6thread] 1 rfl⟩

/-- Witness for the amended C6 theorem at the same concrete input. -/
theorem threads_wellformed_witness :
    createThreadsForConversation [c6msgA, c6msgB] [] 1 = .ok ([c6thread], 1) ∧
    (∀ t ∈ [c6thread],
      t.conversationID = 1 ∧
      t.startTimestamp ≤ t.endTimestamp ∧
      (∃ ms ∈ [c6msgA, c6msgB], ms.conversationID = 1 ∧ t.startMessageID = some ms.id ∧
        ms.timestamp = t.startTimestamp ∧ formatDate ms.timestamp = t.date ∧
        ∀ m ∈ [c6msgA, c6msgB], m.conversationID = 1 → formatDate m.timestamp = t.date →
          ms.timestamp ≤ m.timestamp) ∧
      (∃ me ∈ [c6msgA, c6msgB], me.conversationID = 1 ∧ t.endMessageID = some me.id ∧
        me.timestamp = t.endTimestamp ∧ formatDate me.timestamp = t.date ∧
        ∀ m ∈ [c6msgA, c6msgB], m.conversationID = 1 → formatDate m.timestamp = t.date →
          m.timestamp ≤ me.timestamp)) :=
  ⟨rfl, threads_wellformed [c6msgA, c6msgB] [] 1 [c6thread] 1 rfl⟩

end Autopsy

namespace Autopsy

/-! ## Per-date user-message artifacts (parser.go:340-385) -/

/-- The on-disk file store: path ↦ content. -/
abbrev FileSys := List (String × String)

/-- `os.ReadFile` with the error ignored: an absent file reads as the
empty string (exactly how parser.go:373 treats it). -/
def readFile (fs : FileSys) (path : String) : String :=
  ((fs.find? fun kv => kv.1 == path).map (·.2)).getD ""

/-- `os.WriteFile`: replace the file's content, creating it if absent. -/
def writeFile (fs : FileSys) (path content : String) : FileSys :=
  if (fs.find? fun kv => kv.1 == path).isSome then
    fs.map fun kv => if kv.1 == path then (kv.1, content) else kv
  else fs ++ [(path, content)]

/-- `filepath.Join(messagesDir, fmt.Sprintf("%s.md", date))` for a clean
directory path. -/
def datePath (dir date : String) : String := dir ++ "/" ++ date ++ ".md"

/-- The text block built for one date (parser.go:363-370): the date
header, then per message its clock time, content and a rule. -/
def dateFileBlock (date : String) (msgs : List Message) : String :=
  "# Messages for " ++ date ++ "\n\n" ++
    String.join (msgs.map fun m =>
      "## " ++ formatClock m.timestamp ++ "\n\n" ++ m.content ++ "\n\n---\n\n")

/-- One date's write (loop body, parser.go:353-382): sort the date's
messages by timestamp, build the block, and write the file with the NEW
block first and any previous content appended after it (plus a blank
line) — the code reads the old content and writes it after the new. -/
def writeDateFile (dir : String) (fs : FileSys) (date : String)
    (msgs : List Message) : FileSys :=
  let sorted := sortByKey (fun m => m.timestamp) msgs
  let newContent := dateFileBlock date sorted
  let existing := readFile fs (datePath dir date)
  let content := if existing.length > 0 then newContent ++ "\n\n" ++ existing
    else newContent
  writeFile fs (datePath dir date) content

/-- `extractUserMessagesByDate` (parser.go:340-385): group the user
messages by UTC date (the `if msg.Role == "user"` accumulation equals
grouping the filtered list) and write each date's file. The Go map's
iteration order is unspecified; the fold takes first-occurrence order,
and since distinct dates touch distinct files the per-file outcome is
iteration-order independent. -/
def extractUserMessagesByDate (dir : String) (messages : List Message)
    (fs : FileSys) : FileSys :=
  (groupByKey (fun m => formatDate m.timestamp)
    (messages.filter fun m => m.role == "user")).foldl
    (fun acc kv => writeDateFile dir acc kv.1 kv.2) fs

lemma find?_map_update : ∀ (fs : FileSys) (p c : String),
    (fs.map fun kv => if kv.1 == p then (kv.1, c) else kv).find?
        (fun kv => kv.1 == p) =
      (fs.find? fun kv => kv.1 == p).map (fun kv => (kv.1, c))
  | [], _, _ => rfl
  | kv :: fs', p, c => by
    by_cases hk : (kv.1 == p) = true
    · rw [List.map_cons, if_pos hk, List.find?_cons_of_pos _ (by exact hk),
        List.find?_cons_of_pos _ (by exact hk)]
      rfl
    · rw [List.map_cons, if_neg hk, List.find?_cons_of_neg _ (by exact hk),
        List.find?_cons_of_neg _ (by exact hk)]
      exact find?_map_update fs' p c

lemma find?_map_update_ne : ∀ (fs : FileSys) (p c q : String), q ≠ p →
    (fs.map fun kv => if kv.1 == p then (kv.1, c) else kv).find?
        (fun kv => kv.1 == q) =
      fs.find? (fun kv => kv.1 == q)
  | [], _, _, _, _ => rfl
  | kv :: fs', p, c, q, hne => by
    by_cases hk : (kv.1 == p) = true
    · have hkq : ¬ (kv.1 == q) = true := fun hc =>
        hne (by rw [← eq_of_beq hc, eq_of_beq hk])
      rw [List.map_cons, if_pos hk, List.find?_cons_of_neg _ (by exact hkq),
        List.find?_cons_of_neg _ (by exact hkq)]
      exact find?_map_update_ne fs' p c q hne
    · rw [List.map_cons, if_neg hk]
      by_cases hkq : (kv.1 == q) = true
      · rw [List.find?_cons_of_pos _ (by exact hkq),
          List.find?_cons_of_pos _ (by exact hkq)]
      · rw [List.find?_cons_of_neg _ (by exact hkq),
          List.find?_cons_of_neg _ (by exact hkq)]
        exact find?_map_update_ne fs' p c q hne

lemma find?_append_split {pr : String × String → Bool} :
    ∀ (l1 l2 : FileSys),
      (l1 ++ l2).find? pr =
        match l1.find? pr with
        | some kv => some kv
        | none => l2.find? pr
  | [], l2 => by simp
  | kv :: l1', l2 => by
    by_cases hk : pr kv = true
    · rw [List.cons_append, List.find?_cons_of_pos _ hk, List.find?_cons_of_pos _ hk]
    · rw [List.cons_append, List.find?_cons_of_neg _ hk, List.find?_cons_of_neg _ hk]
      exact find?_append_split l1' l2

lemma readFile_writeFile_same (fs : FileSys) (p c : String) :
    readFile (writeFile fs p c) p = c := by
  rw [writeFile]
  by_cases hf : (fs.find? fun kv => kv.1 == p).isSome
  · rw [if_pos hf, readFile, find?_map_update]
    obtain ⟨kv0, hkv0⟩ := Option.isSome_iff_exists.mp hf
    rw [hkv0]
    rfl
  · rw [if_neg hf, readFile, find?_append_split,
      Option.not_isSome_iff_eq_none.mp hf]
    have hval : List.find? (fun kv => kv.1 == p) [(p, c)] = some (p, c) := by simp
    simp only
    rw [hval]
    rfl

lemma readFile_writeFile_ne (fs : FileSys) (p c q : String) (hne : q ≠ p) :
    readFile (writeFile fs p c) q = readFile fs q := by
  rw [writeFile]
  by_cases hf : (fs.find? fun kv => kv.1 == p).isSome
  · rw [if_pos hf, readFile, readFile, find?_map_update_ne fs p c q hne]
  · rw [if_neg hf, readFile, readFile, find?_append_split]
    have hpq : ¬ (((p, c) : String × String).1 == q) = true := fun hc =>
      hne (eq_of_beq hc).symm
    cases hq : fs.find? (fun kv => kv.1 == q) with
    | some kv0 => rfl
    | none =>
      simp only
      have hval : List.find? (fun kv => kv.1 == q) [(p, c)] = none :=
        List.find?_eq_none.mpr (by
          intro x hx
          simp only [List.mem_singleton] at hx
          subst hx
          exact fun hc => hne (eq_of_beq hc).symm)
      rw [hval]

end Autopsy

namespace Autopsy

lemma readFile_writeDateFile_ne (dir : String) (fs : FileSys) (k : String)
    (b : List Message) (q : String) (hne : q ≠ datePath dir k) :
    readFile (writeDateFile dir fs k b) q = readFile fs q := by
  rw [writeDateFile]
  exact readFile_writeFile_ne _ _ _ _ hne

lemma fold_untouched (dir : String) :
    ∀ (groups : List (String × List Message)) (fs : FileSys) (q : String),
      (∀ kv ∈ groups, datePath dir kv.1 ≠ q) →
      readFile (groups.foldl (fun acc kv => writeDateFile dir acc kv.1 kv.2) fs) q =
        readFile fs q
  | [], _, _, _ => rfl
  | kv :: rest, fs, q, h => by
    rw [List.foldl_cons,
      fold_untouched dir rest _ q (fun kv' hkv' => h kv' (List.mem_cons_of_mem _ hkv'))]
    exact readFile_writeDateFile_ne dir fs kv.1 kv.2 q
      (fun hc => h kv (List.mem_cons_self _ _) hc.symm)

lemma fold_writeDate_content (dir : String) :
    ∀ (groups : List (String × List Message)) (fs : FileSys) (d : String)
      (bucket : List Message),
      (d, bucket) ∈ groups →
      (groups.map Prod.fst).Nodup →
      (∀ kv ∈ groups, kv.1 ≠ d → datePath dir kv.1 ≠ datePath dir d) →
      readFile (groups.foldl (fun acc kv => writeDateFile dir acc kv.1 kv.2) fs)
          (datePath dir d) =
        (if (readFile fs (datePath dir d)).length > 0
         then dateFileBlock d (sortByKey (fun m => m.timestamp) bucket) ++ "\n\n" ++
           readFile fs (datePath dir d)
         else dateFileBlock d (sortByKey (fun m => m.timestamp) bucket))
  | [], _, _, _, hmem, _, _ => absurd hmem (List.not_mem_nil _)
  | kv :: rest, fs, d, bucket, hmem, hnd, hinj => by
    rw [List.map_cons] at hnd
    have hnd' := List.nodup_cons.mp hnd
    rw [List.foldl_cons]
    rcases List.mem_cons.mp hmem with heq | hmem'
    · have heq' : kv = (d, bucket) := heq.symm
      subst heq'
      have hrest : ∀ kv' ∈ rest, datePath dir kv'.1 ≠ datePath dir d := by
        intro kv' hkv'
        apply hinj kv' (List.mem_cons_of_mem _ hkv')
        intro hceq
        have hmm := List.mem_map_of_mem Prod.fst hkv'
        rw [hceq] at hmm
        exact hnd'.1 hmm
      rw [fold_untouched dir rest _ (datePath dir d) hrest, writeDateFile,
        readFile_writeFile_same]
    · have hk1 : kv.1 ≠ d := by
        intro hceq
        have hdmem : d ∈ rest.map Prod.fst := by
          have := List.mem_map_of_mem Prod.fst hmem'
          simpa using this
        rw [hceq] at hnd'
        exact hnd'.1 hdmem
      have hIH := fold_writeDate_content dir rest (writeDateFile dir fs kv.1 kv.2) d
        bucket hmem' hnd'.2
        (fun kv' hkv' => hinj kv' (List.mem_cons_of_mem _ hkv'))
      rw [hIH, readFile_writeDateFile_ne dir fs kv.1 kv.2 (datePath dir d)
        (fun hc => hinj kv (List.mem_cons_self _ _) hk1 hc.symm)]

/-- C10 (amended): for each UTC date `d` with user messages in the run,
the parser writes the single file `dir/d.md`; its new content is the
date's user messages of this run in chronological (timestamp) order,
and any previous content of the file is preserved — but PLACED AFTER
the new block (the file is prepended to, not appended to). -/
theorem extractUserMessages_per_date (dir : String) (messages : List Message)
    (fs : FileSys) (d : String) (bucket : List Message)
    (hmem : (d, bucket) ∈ groupByKey (fun m => formatDate m.timestamp)
      (messages.filter fun m => m.role == "user"))
    (hinj : ∀ kv ∈ groupByKey (fun m => formatDate m.timestamp)
        (messages.filter fun m => m.role == "user"),
      kv.1 ≠ d → datePath dir kv.1 ≠ datePath dir d) :
    ∃ sorted : List Message,
      sorted.Perm ((messages.filter fun m => m.role == "user").filter
        fun m => formatDate m.timestamp == d) ∧
      sorted.Pairwise (fun a b => a.timestamp ≤ b.timestamp) ∧
      readFile (extractUserMessagesByDate dir messages fs) (datePath dir d) =
        (if (readFile fs (datePath dir d)).length > 0
         then dateFileBlock d sorted ++ "\n\n" ++ readFile fs (datePath dir d)
         else dateFileBlock d sorted) := by
  have hgroups := groupByKey_groups (fun m : Message => formatDate m.timestamp)
    (messages.filter fun m => m.role == "user")
  have hbucket : bucket = (messages.filter fun m => m.role == "user").filter
      (fun m => formatDate m.timestamp == d) := (hgroups.2.1 (d, bucket) hmem).1
  refine ⟨sortByKey (fun m => m.timestamp) bucket, ?_, ?_, ?_⟩
  · have hperm := sortByKey_perm (fun m : Message => m.timestamp) bucket
    rw [← hbucket]
    exact hperm
  · exact sortByKey_pairwise (fun m : Message => m.timestamp) bucket
  · rw [extractUserMessagesByDate]
    exact fold_writeDate_content dir _ fs d bucket hmem hgroups.1 hinj

end Autopsy

namespace Autopsy

/-- A first conversation's user message on 1970-01-01. -/
def c10msg1 : Message :=
  { id := 1, conversationID := 1, messageID := some "a", role := "user", content := "first", timestamp := 100, messageIndex := 0 }

/-- A second conversation's user message on the same date. -/
def c10msg2 : Message :=
  { id := 2, conversationID := 2, messageID := some "b", role := "user", content := "second", timestamp := 200, messageIndex := 0 }

/-- The file store after the first conversation's run. -/
def c10fs1 : FileSys := extractUserMessagesByDate "m" [c10msg1] []

/-- The file store after the second conversation's run. -/
def c10fs2 : FileSys := extractUserMessagesByDate "m" [c10msg2] c10fs1

/-- C10 counterexample: after the second conversation contributes to the
same date, the previously written content is NOT a leading part of the
file — the claim's "the file is appended to" fails. The old content is
preserved, but after the new block (the file is prepended to). -/
theorem dateFile_prepended_not_appended :
    (readFile c10fs1 (datePath "m" "1970-01-01")).length > 0 ∧
    ((readFile c10fs1 (datePath "m" "1970-01-01")).data.isPrefixOf
      (readFile c10fs2 (datePath "m" "1970-01-01")).data) = false ∧
    readFile c10fs2 (datePath "m" "1970-01-01") =
      dateFileBlock "1970-01-01" [c10msg2] ++ "\n\n" ++
        readFile c10fs1 (datePath "m" "1970-01-01") :=
  ⟨by decide, rfl, rfl⟩

/-- Witness for the amended C10 theorem at the first run's input. -/
theorem extractUserMessages_per_date_witness :
    (("1970-01-01", [c10msg1]) ∈ groupByKey (fun m => formatDate m.timestamp)
      ([c10msg1].filter fun m => m.role == "user")) ∧
    ∃ sorted : List Message,
      sorted.Perm (([c10msg1].filter fun m => m.role == "user").filter
        fun m => formatDate m.timestamp == "1970-01-01") ∧
      sorted.Pairwise (fun a b => a.timestamp ≤ b.timestamp) ∧
      readFile (extractUserMessagesByDate "m" [c10msg1] [])
          (datePath "m" "1970-01-01") =
        (if (readFile ([] : FileSys) (datePath "m" "1970-01-01")).length > 0
         then dateFileBlock "1970-01-01" sorted ++ "\n\n" ++
           readFile ([] : FileSys) (datePath "m" "1970-01-01")
         else dateFileBlock "1970-01-01" sorted) :=
  ⟨by decide,
   extractUserMessages_per_date "m" [c10msg1] [] "1970-01-01" [c10msg1]
     (by decide) (by decide)⟩

end Autopsy

namespace Autopsy

/-! ## Upload ingestion (`internal/services/upload.go`, `internal/api/handlers.go`) -/

/-- A `models.Upload` record (the fields `UploadFile` writes). -/
structure UploadRec where
  id : Nat
  uuid : String
  originalFilename : String
  storedPath : String
  fileSize : Nat
  fileHash : String
  status : String
deriving DecidableEq

/-- A `models.Import` record as created at upload time. -/
structure ImportRow where
  uploadID : Nat
  status : String
  progressPercent : Nat
deriving DecidableEq

/-- The upload- and import-tables plus the next auto-assigned key. -/
structure UploadDB where
  uploads : List UploadRec
  imports : List ImportRow
  nextID : Nat
deriving DecidableEq

/-- The error branches of `UploadFile`; `alreadyUploaded` is the
duplicate-hash rejection (`"file already uploaded (ID: %d)"`), which the
handler answers with 409 `DUPLICATE_UPLOAD`. -/
inductive UploadError where
  | fileTooLarge
  | sizeMismatch
  | alreadyUploaded (existingID : Nat)
deriving DecidableEq

/-- `os.Remove` (removing an absent file is a no-op). -/
def removeFile (fs : FileSys) (path : String) : FileSys :=
  fs.filter fun kv => !(kv.1 == path)

/-- `UploadService.UploadFile` (upload.go:36-139): validate the declared
size; stream the content into `<uploadsDir>/<uuid>.zip.tmp` while
hashing it; check the written byte count; look up the content hash and
reject a duplicate BEFORE the rename (the deferred remove then deletes
the temp file); otherwise rename the temp file into place and create
the Upload and Import records in one transaction. The hash function is
a parameter: identical content yields an identical hash. -/
def uploadFile (maxFileSize : Nat) (uploadsDir : String) (db : UploadDB)
    (fs : FileSys) (originalFilename uuid content : String) (declaredSize : Nat)
    (hashOf : String → String) :
    UploadDB × FileSys × Except UploadError UploadRec :=
  if maxFileSize < declaredSize then (db, fs, .error .fileTooLarge)
  else
    let storedPath := uploadsDir ++ "/" ++ uuid ++ ".zip"
    let tempPath := storedPath ++ ".tmp"
    let fs1 := writeFile fs tempPath content
    if content.length ≠ declaredSize then
      (db, removeFile fs1 tempPath, .error .sizeMismatch)
    else
      match db.uploads.find? fun u => u.fileHash == hashOf content with
      | some existing =>
        (db, removeFile fs1 tempPath, .error (.alreadyUploaded existing.id))
      | none =>
        let fs2 := writeFile (removeFile fs1 tempPath) storedPath content
        let upload : UploadRec :=
          { id := db.nextID
            uuid := uuid
            originalFilename := originalFilename
            storedPath := storedPath
            fileSize := declaredSize
            fileHash := hashOf content
            status := "pending" }
        ({ db with
           uploads := db.uploads ++ [upload]
           imports := db.imports ++ [⟨upload.id, "pending", 0⟩]
           nextID := db.nextID + 1 }, fs2, .ok upload)

/-- The observable outcome of the upload HTTP handler. -/
structure UploadOutcome where
  db : UploadDB
  files : FileSys
  result : Except UploadError UploadRec
  pipelineStarted : Bool

/-- The handler around `UploadFile` (handlers.go:102-131): on any error
it answers the request (409 for a duplicate) and does NOT start the
extraction/parsing/thread pipeline; only a success triggers it. -/
def handleUpload (maxFileSize : Nat) (uploadsDir : String) (db : UploadDB)
    (fs : FileSys) (originalFilename uuid content : String) (declaredSize : Nat)
    (hashOf : String → String) : UploadOutcome :=
  match uploadFile maxFileSize uploadsDir db fs originalFilename uuid content
      declaredSize hashOf with
  | (db', fs', .error e) => ⟨db', fs', .error e, false⟩
  | (db', fs', .ok u) => ⟨db', fs', .ok u, true⟩

lemma removeFile_writeFile_fresh (fs : FileSys) (p c : String)
    (h : fs.find? (fun kv => kv.1 == p) = none) :
    removeFile (writeFile fs p c) p = fs := by
  rw [writeFile, if_neg (by simp [h]), removeFile, List.filter_append]
  have h1 : fs.filter (fun kv => !(kv.1 == p)) = fs := by
    apply List.filter_eq_self.mpr
    intro kv hkv
    have hne := List.find?_eq_none.mp h kv hkv
    simpa using hne
  have h2 : ([(p, c)] : FileSys).filter (fun kv => !(kv.1 == p)) = [] := by simp
  rw [h1, h2, List.append_nil]

/-- C8: a second archive whose content hash equals a stored upload's
hash is rejected with the duplicate (conflict) error before any rename
or record creation: the database gains no Upload/Import row, the file
store is left exactly as it was (the temp file is cleaned up), and the
pipeline — extraction and everything after it — is never started, so no
Extraction or Conversation record can arise from it. -/
theorem duplicate_upload_rejected (maxFileSize : Nat) (uploadsDir : String)
    (db : UploadDB) (fs : FileSys) (originalFilename uuid content : String)
    (hashOf : String → String) (existing : UploadRec)
    (hfind : db.uploads.find? (fun u => u.fileHash == hashOf content) = some existing)
    (hsize : content.length ≤ maxFileSize)
    (htemp : fs.find?
      (fun kv => kv.1 == uploadsDir ++ "/" ++ uuid ++ ".zip" ++ ".tmp") = none) :
    handleUpload maxFileSize uploadsDir db fs originalFilename uuid content
      content.length hashOf =
      ⟨db, fs, .error (.alreadyUploaded existing.id), false⟩ := by
  have hup : uploadFile maxFileSize uploadsDir db fs originalFilename uuid content
      content.length hashOf = (db, fs, .error (.alreadyUploaded existing.id)) := by
    rw [uploadFile, if_neg (not_lt.mpr hsize)]
    simp only [hfind]
    rw [if_neg (by simp)]
    rw [removeFile_writeFile_fresh fs _ content htemp]
  rw [handleUpload, hup]

/-- The stored upload the duplicate collides with. -/
def dupExisting : UploadRec :=
  { id := 9, uuid := "u0", originalFilename := "a.zip", storedPath := "d/u0.zip", fileSize := 1, fileHash := "h", status := "completed" }

/-- A database already holding `dupExisting`. -/
def dupDB : UploadDB := { uploads := [dupExisting], imports := [], nextID := 10 }

/-- Witness for C8: re-uploading content hashing to `"h"` (hash modelled
as the identity on this one-character content) is rejected and changes
nothing. -/
theorem duplicate_upload_rejected_witness :
    dupDB.uploads.find? (fun u => u.fileHash == (fun s : String => s) "h") =
      some dupExisting ∧
    ("h" : String).length ≤ 5 ∧
    ([] : FileSys).find?
      (fun kv => kv.1 == "d" ++ "/" ++ "u1" ++ ".zip" ++ ".tmp") = none ∧
    handleUpload 5 "d" dupDB [] "b.zip" "u1" "h" ("h" : String).length
        (fun s : String => s) =
      ⟨dupDB, [], .error (.alreadyUploaded 9), false⟩ := by
  refine ⟨rfl, by decide, rfl, ?_⟩
  exact duplicate_upload_rejected 5 "d" dupDB [] "b.zip" "u1" "h"
    (fun s : String => s) dupExisting rfl (by decide) rfl

end Autopsy
